import Mathlib

/-!
Verification development for the `fqc` repository (single-cell technology
classification and BAM demultiplexing).  The definitions below are shallow
embeddings of the Python source files `fqc/technologies.py`, `fqc/fqc.py`,
`fqc/bam.py` and `fqc/utils.py`.  Python dictionaries are modelled as
insertion-ordered association lists, fallible operations (KeyError,
IndexError, ZeroDivisionError, missing files) are modelled in the `Except`
monad, and true division is modelled over `ℚ`.
-/

set_option autoImplicit false

namespace Fqc

/-! ## Association lists modelling Python `dict` (insertion ordered) -/

/-- Lookup of a key in an insertion-ordered association list (`d[k]` /
`k in d` on a Python `dict`). -/
def alookup {K V : Type} [DecidableEq K] (k : K) : List (K × V) → Option V
  | [] => none
  | (k', v) :: rest => if k' = k then some v else alookup k rest

/-- Update the value at a key if present (keeping its position), otherwise
append the binding at the end — the semantics of `d[k] = v` on a Python
`dict`. -/
def aupsert {K V : Type} [DecidableEq K] (k : K) (v : V) : List (K × V) → List (K × V)
  | [] => [(k, v)]
  | (k', v') :: rest =>
    if k' = k then (k', v) :: rest else (k', v') :: aupsert k v rest

/-- `d.setdefault(k, dflt)`: insert `(k, dflt)` at the end when `k` is
absent, otherwise leave the dictionary unchanged. -/
def asetdefault {K V : Type} [DecidableEq K] (k : K) (dflt : V) (l : List (K × V)) :
    List (K × V) :=
  match alookup k l with
  | some _ => l
  | none => l ++ [(k, dflt)]

/-- `del d[k]`: remove the binding of `k` (keys are unique in every
dictionary built by this development, so removing all matches is the
removal of the single binding). -/
def aerase {K V : Type} [DecidableEq K] (k : K) (l : List (K × V)) : List (K × V) :=
  l.filter (fun e => decide (e.1 ≠ k))

/-- `list(d.keys())` on the association-list model. -/
def akeys {K V : Type} (l : List (K × V)) : List K := l.map Prod.fst

/-- Fallible list indexing: `xs[i]` in Python raises `IndexError` when the
index is out of range. -/
def pget {α : Type} (xs : List α) (i : ℕ) : Except String α :=
  match xs.get? i with
  | some x => Except.ok x
  | none => Except.error "IndexError"

/-- Turn an optional value into an `Except`, the model of a fallible Python
operation (`KeyError`, a missing file, ...). -/
def ofOption {α : Type} (o : Option α) (msg : String) : Except String α :=
  match o with
  | some x => Except.ok x
  | none => Except.error msg

/-! ## Data model (`fqc/technologies.py`) -/

/-- `ReadSubstring(file, start, stop)`: a half-open character range
`[start, stop)` within the logical read of file index `file`.  Every
barcode/UMI region in the registry has bounded `start`/`stop`, which is the
only form the extraction and demultiplexing code consumes. -/
structure ReadSubstring where
  file : ℕ
  start : ℕ
  stop : ℕ
  deriving DecidableEq, Repr

/-- `Technology` (namedtuple).  The sequence region (`reads_file`) always
has unbounded `start`/`stop` in the registry and only its `file` index is
ever read by the code, so it is modelled by that index. -/
structure Technology where
  name : String
  description : String
  n_files : ℕ
  reads_file : ℕ
  umi_positions : List ReadSubstring
  barcode_positions : List ReadSubstring
  whitelist_path : Option String
  deriving DecidableEq, Repr

/-- `OrderedTechnology` (namedtuple): a technology together with a FASTQ
permutation. -/
structure OrderedTechnology where
  technology : Technology
  permutation : List ℕ
  deriving DecidableEq, Repr

/-- Python truthiness of the `whitelist_path` field (`None` and the empty
string are falsy). -/
def pyTruthy (o : Option String) : Bool :=
  match o with
  | none => false
  | some s => decide (s ≠ "")

/-- The `'10xv1'` registry entry. -/
def tech10xv1 : Technology :=
  { name := "10xv1", description := "10x version 1", n_files := 3,
    reads_file := 2,
    umi_positions := [⟨1, 0, 10⟩],
    barcode_positions := [⟨0, 0, 14⟩],
    whitelist_path := some "10xv1_whitelist.txt.gz" }

/-- The `'10xv2'` registry entry. -/
def tech10xv2 : Technology :=
  { name := "10xv2", description := "10x version 2", n_files := 2,
    reads_file := 1,
    umi_positions := [⟨0, 16, 26⟩],
    barcode_positions := [⟨0, 0, 16⟩],
    whitelist_path := some "10xv2_whitelist.txt.gz" }

/-- The `'10xv3'` registry entry. -/
def tech10xv3 : Technology :=
  { name := "10xv3", description := "10x version 3", n_files := 2,
    reads_file := 1,
    umi_positions := [⟨0, 16, 28⟩],
    barcode_positions := [⟨0, 0, 16⟩],
    whitelist_path := some "10xv3_whitelist.txt.gz" }

/-- The `'indropsv3'` registry entry. -/
def techIndropsv3 : Technology :=
  { name := "indropsv3", description := "inDrops version 3", n_files := 3,
    reads_file := 2,
    umi_positions := [⟨0, 0, 8⟩, ⟨1, 0, 8⟩],
    barcode_positions := [⟨1, 8, 14⟩],
    whitelist_path := some "indropsv3_whitelist.txt.gz" }

/-- The technology registry `TECHNOLOGIES`.  The whitelist paths are
`os.path.join(WHITELIST_DIR, basename)`; `WHITELIST_DIR` comes from
`fqc/config.py`, which is not part of the sources, so paths are modelled by
their distinct basenames (every use of a path goes through an abstract
whitelist environment, so only identity and truthiness of the path
matter). -/
def TECHNOLOGIES : List Technology :=
  [tech10xv1, tech10xv2, tech10xv3, techIndropsv3]

/-! ## Hypothesis enumeration (`all_ordered_technologies`, `filter_files`) -/

/-- Recursion worker for `permsPy`, structurally recursive on a fuel equal
to the list length (each recursive call removes exactly one element). -/
def permsAux : ℕ → List ℕ → List (List ℕ)
  | 0, _ => [[]]
  | fuel + 1, l =>
    (List.range l.length).attach.flatMap
      (fun i => (permsAux fuel (l.eraseIdx i.1)).map (fun p => l.getD i.1 0 :: p))

/-- `itertools.permutations(l)` (full length): all orderings, emitting the
element at index `i` first for `i` ascending, followed recursively by the
permutations of the list with index `i` removed.  For a sorted input this
is exactly the documented lexicographic emission order of `itertools`. -/
def permsPy (l : List ℕ) : List (List ℕ) := permsAux l.length l

/-- `all_ordered_technologies(technologies, n)`: every
`OrderedTechnology(t, p)` for `t` in the list and `p` a permutation of
`range(n)`, in enumeration order. -/
def all_ordered_technologies (technologies : List Technology) (n : ℕ) :
    List OrderedTechnology :=
  technologies.flatMap
    (fun t => (permsPy (List.range n)).map (fun p => ⟨t, p⟩))

/-- `filter_files(reads, technologies)`: keep the ordered technologies whose
`n_files` equals the number of input files; an empty `technologies`
argument is falsy in Python and is replaced by the full enumeration. -/
def filter_files (reads : List (String × List String))
    (technologies : List OrderedTechnology) : List OrderedTechnology :=
  let technologies :=
    if technologies.isEmpty then
      all_ordered_technologies TECHNOLOGIES reads.length
    else technologies
  technologies.filter (fun ot => decide (reads.length = ot.technology.n_files))

/-! ## Extraction engine (`extract_barcodes_umis`) -/

/-- The mutable state threaded through `extract_barcodes_umis`: the
`barcodes` and `umis` dictionaries (technology name ↦ permutation ↦ list of
per-read extracted substring lists) and the `invalids` dictionary
(technology name ↦ set of invalidated permutations, modelled as a list). -/
structure ExtractState where
  barcodes : List (String × List (List ℕ × List (List String)))
  umis : List (String × List (List ℕ × List (List String)))
  invalids : List (String × List (List ℕ))
  deriving DecidableEq, Repr

/-- The empty initial state (`barcodes = {}`, `umis = {}`,
`invalids = {}`). -/
def initState : ExtractState := ⟨[], [], []⟩

/-- The inner region loop of `extract_barcodes_umis`: iterate over the
declared regions, resolving each physical read via
`reads[permutation[substring.file]]`; on the first region the read is too
short for (`len(read) <= start or len(read) < stop`) stop and report
invalidity, keeping the substrings accumulated so far (Python appends the
partial list, which is deleted again once the hypothesis is invalid). -/
def extractRegions (readsTuple : List String) (perm : List ℕ) :
    List ReadSubstring → Except String (List String × Bool)
  | [] => Except.ok ([], false)
  | s :: rest =>
    match pget perm s.file with
    | Except.error e => Except.error e
    | Except.ok fi =>
      match pget readsTuple fi with
      | Except.error e => Except.error e
      | Except.ok read =>
        if read.length ≤ s.start ∨ read.length < s.stop then
          Except.ok ([], true)
        else
          match extractRegions readsTuple perm rest with
          | Except.error e => Except.error e
          | Except.ok (tail, invalid) =>
            Except.ok ((read.drop s.start).take (s.stop - s.start) :: tail, invalid)

/-- One iteration of the inner technology loop of `extract_barcodes_umis`
for a fixed read position: perform the three `setdefault`s, skip the
hypothesis when its permutation is already invalid, otherwise extract the
barcode and UMI substrings, append them, and on invalidity delete the
permutation's accumulated entries and record it in `invalids`. -/
def extractStep (readsTuple : List String) (st : ExtractState)
    (ordered : OrderedTechnology) : Except String ExtractState :=
  let t := ordered.technology
  let p := ordered.permutation
  let bs := asetdefault t.name [] st.barcodes
  let us := asetdefault t.name [] st.umis
  let invs := asetdefault t.name [] st.invalids
  let tinv := (alookup t.name invs).getD []
  if p ∈ tinv then
    Except.ok ⟨bs, us, invs⟩
  else
    let tb := asetdefault p [] ((alookup t.name bs).getD [])
    let tu := asetdefault p [] ((alookup t.name us).getD [])
    match extractRegions readsTuple p t.barcode_positions,
          extractRegions readsTuple p t.umi_positions with
    | Except.error e, _ => Except.error e
    | Except.ok _, Except.error e => Except.error e
    | Except.ok (bcList, bcInvalid), Except.ok (umiList, umiInvalid) =>
      if bcInvalid ∨ umiInvalid then
        Except.ok ⟨aupsert t.name (aerase p tb) bs,
                   aupsert t.name (aerase p tu) us,
                   aupsert t.name (tinv ++ [p]) invs⟩
      else
        Except.ok ⟨aupsert t.name (aupsert p (((alookup p tb).getD []) ++ [bcList]) tb) bs,
                   aupsert t.name (aupsert p (((alookup p tu).getD []) ++ [umiList]) tu) us,
                   invs⟩

/-- `zip(*readLists)`: the sequence of positional read tuples, truncated at
the shortest input (and empty when there are no inputs). -/
def zipStar (readLists : List (List String)) : List (List String) :=
  match readLists with
  | [] => []
  | _ :: _ =>
    (List.range ((readLists.map List.length).foldr min
      ((readLists.headD []).length))).map
      (fun i => readLists.map (fun l => l.getD i ""))

/-- Process every hypothesis for one read position (the body of the outer
`for i, reads in enumerate(zip(...))` loop). -/
def extractRead (technologies : List OrderedTechnology) (st : ExtractState)
    (readsTuple : List String) : Except String ExtractState :=
  technologies.foldlM (extractStep readsTuple) st

/-- `extract_barcodes_umis` starting from an arbitrary state (the actual
entry point starts from the empty state). -/
def extractFrom (st : ExtractState) (reads : List (String × List String))
    (technologies : List OrderedTechnology) : Except String ExtractState :=
  (zipStar (reads.map Prod.snd)).foldlM (extractRead technologies) st

/-- `extract_barcodes_umis(reads, technologies)`; an empty `technologies`
argument is falsy in Python and is replaced by the full enumeration. -/
def extract_barcodes_umis (reads : List (String × List String))
    (technologies : List OrderedTechnology) : Except String ExtractState :=
  let technologies :=
    if technologies.isEmpty then
      all_ordered_technologies TECHNOLOGIES reads.length
    else technologies
  extractFrom initState reads technologies

/-! ## Classifier (`filter_barcodes_umis`)

The whitelist files live on disk; they are modelled by an environment
`wl : String → Option (List String)` mapping a path to the lines of the
file when it exists and is readable (`open_as_text` + `splitlines`), and to
`none` when opening raises (`FileNotFoundError` etc.). -/

/-- The `barcode_technologies` list: registry technologies with a truthy
whitelist path whose name occurs among the candidate ordered
technologies. -/
def barcodeTechnologies (technologies : List OrderedTechnology) : List Technology :=
  TECHNOLOGIES.filter
    (fun t => pyTruthy t.whitelist_path &&
      decide (t.name ∈ technologies.map (fun ot => ot.technology.name)))

/-- A tier-1 candidate: the ordered technology, its whitelist match count
(`count`), and the number of accumulated barcode entries (`n`). -/
abbrev Candidate := OrderedTechnology × ℕ × ℕ

/-- Score one technology's surviving permutations: for each permutation `p`
in `barcodes[technology.name]` (in dictionary insertion order), count the
entries whose concatenation (`''.join(bc_list)`) is a whitelist member.
`n = 0` would make Python's `count / n` raise `ZeroDivisionError`. -/
def scoreTechnology (whitelist : List String) (t : Technology)
    (entries : List (List ℕ × List (List String))) : Except String (List Candidate) :=
  entries.mapM (fun pe =>
    if pe.2.length = 0 then
      Except.error "ZeroDivisionError"
    else
      Except.ok ((⟨t, pe.1⟩ : OrderedTechnology),
        pe.2.countP (fun bcList => decide (String.join bcList ∈ whitelist)), pe.2.length))

/-- One iteration of the whitelist-technology loop: load the whitelist file
(a missing/unreadable file raises where `open_as_text` would), read
`barcodes[technology.name]` (raising `KeyError` when absent), score every
surviving permutation, and extend the candidate list. -/
def tierOneStep (wl : String → Option (List String)) (st : ExtractState)
    (acc : List Candidate) (t : Technology) : Except String (List Candidate) :=
  match ofOption (wl (t.whitelist_path.getD "")) "ResourceUnavailable" with
  | Except.error e => Except.error e
  | Except.ok whitelist =>
    match ofOption (alookup t.name st.barcodes) "KeyError" with
    | Except.error e => Except.error e
    | Except.ok entries =>
      match scoreTechnology whitelist t entries with
      | Except.error e => Except.error e
      | Except.ok cands => Except.ok (acc ++ cands)

/-- Build the tier-1 candidate list in the exact enumeration order of the
classifier's loops: technologies in registry order, permutations in
dictionary insertion order. -/
def tierOneCandidates (wl : String → Option (List String)) (st : ExtractState)
    (technologies : List OrderedTechnology) : Except String (List Candidate) :=
  (barcodeTechnologies technologies).foldlM (tierOneStep wl st) []

/-- The running `(max_ordered, max_count)` fold of the classifier: a
candidate replaces the running maximum when `count / n > 0.5` (true
division, modelled over `ℚ`) and `count > max_count`. -/
def selectCandidate (cands : List Candidate) : Option OrderedTechnology × ℕ :=
  cands.foldl
    (fun acc c =>
      if (c.2.1 : ℚ) / (c.2.2 : ℚ) > 1/2 ∧ c.2.1 > acc.2 then (some c.1, c.2.1)
      else acc)
    (none, 0)

/-- `filter_barcodes_umis(reads, technologies)`: extract, score the
whitelist-backed technologies, and return `[max_ordered]` when a candidate
qualified, `[]` otherwise.  The scoring of technologies without a
whitelist is commented out in the source and therefore absent here. -/
def filter_barcodes_umis (wl : String → Option (List String))
    (reads : List (String × List String))
    (technologies : List OrderedTechnology) :
    Except String (List OrderedTechnology) :=
  let technologies :=
    if technologies.isEmpty then
      all_ordered_technologies TECHNOLOGIES reads.length
    else technologies
  match extractFrom initState reads technologies with
  | Except.error e => Except.error e
  | Except.ok st =>
    match tierOneCandidates wl st technologies with
    | Except.error e => Except.error e
    | Except.ok cands =>
      match (selectCandidate cands).1 with
      | some maxOrdered => Except.ok [maxOrdered]
      | none => Except.ok []

/-! ## Read-file driver (`fqc_fastq`)

Reading `n` reads from each FASTQ after a skip is file I/O; the driver is
modelled from the point where the per-file read lists are in hand, i.e. its
input is the list of `(path, sampled reads)` pairs in command-line order. -/

/-- The index-read test `len(set(rs)) / len(rs) < 0.05` for one file's
sampled reads (`set` cardinality is the number of distinct reads);
an empty sample makes Python's division raise `ZeroDivisionError`. -/
def isIndexRead (rs : List String) : Except String Bool :=
  if rs.length = 0 then Except.error "ZeroDivisionError"
  else Except.ok (decide ((rs.dedup.length : ℚ) / (rs.length : ℚ) < 1/20))

/-- The sampling loop of `fqc_fastq`: keep each file unless its sampled
reads look like an index read, preserving order. -/
def selectReads : List (String × List String) →
    Except String (List (String × List String))
  | [] => Except.ok []
  | (path, rs) :: rest =>
    match isIndexRead rs with
    | Except.error e => Except.error e
    | Except.ok low =>
      match selectReads rest with
      | Except.error e => Except.error e
      | Except.ok kept => Except.ok (if low then kept else (path, rs) :: kept)

/-- `fqc_fastq` (modulo file I/O): select non-index files, filter by file
count, then filter by barcodes/UMIs; returns the kept paths and the
surviving ordered technologies. -/
def fqc_fastq (wl : String → Option (List String))
    (input : List (String × List String)) :
    Except String (List String × List OrderedTechnology) :=
  match selectReads input with
  | Except.error e => Except.error e
  | Except.ok reads =>
    match filter_barcodes_umis wl reads (filter_files reads []) with
    | Except.error e => Except.error e
    | Except.ok technologies => Except.ok (akeys reads, technologies)

/-! ## Demultiplexing pipeline (`fqc/bam.py`)

The per-record reconstruction performed by `BAM.parser` (lines 116–136) is
pure once the pysam record's tags have been extracted; `extract_10x`
returns `([barcode], [umi], sequence)` where each component is a
`(characters, quality characters)` pair. -/

/-- One decoded record as handed to the reconstruction step: the outputs of
`BAM.EXTRACT_FUNCTIONS[technology.name](item)`. -/
structure ExtractedRecord where
  barcodes : List (List Char × List Char)
  umis : List (List Char × List Char)
  sequence : List Char × List Char
  deriving DecidableEq, Repr

/-- Python slice assignment `lst[start:stop] = repl` on a list: the slice is
replaced by the replacement (whose length need not match the slice). -/
def sliceAssign {α : Type} (l : List α) (start stop : ℕ) (repl : List α) : List α :=
  l.take start ++ repl ++ l.drop stop

/-- Overlay one region's `(sequence, quality)` payload onto the read pair
of its file, leaving the other files untouched
(`reads[substring.file][0][start:stop] = payload[0]` and likewise for the
quality row). -/
def overlayRegion (reads : List (List Char × List Char))
    (payload : List Char × List Char) (s : ReadSubstring) :
    Except String (List (List Char × List Char)) :=
  match pget reads s.file with
  | Except.error e => Except.error e
  | Except.ok read =>
    Except.ok (reads.set s.file
      (sliceAssign read.1 s.start s.stop payload.1,
       sliceAssign read.2 s.start s.stop payload.2))

/-- The per-record body of `BAM.parser`: start from `['N'] * l` /
`['F'] * l` placeholder rows for each file length, install the sequence
read wholesale at `technology.reads_file`, then overlay the barcode
regions (`zip(barcodes, barcode_positions)`) and the UMI regions
(`zip(umis, umi_positions)`); the written lines are upper-cased. -/
def reconstructReads (technology : Technology) (lengths : List ℕ)
    (rec : ExtractedRecord) : Except String (List (List Char × List Char)) :=
  let reads := lengths.map (fun l => (List.replicate l 'N', List.replicate l 'F'))
  match pget reads technology.reads_file with
  | Except.error e => Except.error e
  | Except.ok _ =>
    let reads := reads.set technology.reads_file rec.sequence
    match (rec.barcodes.zip technology.barcode_positions).foldlM
        (fun rs bs => overlayRegion rs bs.1 bs.2) reads with
    | Except.error e => Except.error e
    | Except.ok reads =>
      match (rec.umis.zip technology.umi_positions).foldlM
          (fun rs us => overlayRegion rs us.1 us.2) reads with
      | Except.error e => Except.error e
      | Except.ok reads =>
        Except.ok (reads.map (fun r => (r.1.map Char.toUpper, r.2.map Char.toUpper)))

/-! The shard merge at the end of `BAM.to_fastq` (lines 211–215).  The file
system is modelled as an association list from path to content; `open(p,
'wb')` followed by `shutil.copyfileobj` for each part writes the
concatenation of the parts' contents. -/

/-- The contents of the file system after the merge loop: for each
`(fastq, group)` pair in order, read every part of the group (a missing
part raises) and write their concatenation to the output path.  The source
contains no deletion of the part files. -/
def mergeFastqs (fs : List (String × String))
    (pairs : List (String × List String)) : Except String (List (String × String)) :=
  pairs.foldlM
    (fun fs' pr => do
      let contents ← pr.2.mapM (fun part => ofOption (alookup part fs') "FileNotFoundError")
      Except.ok (aupsert pr.1 (String.join contents) fs'))
    fs

/-- The `(fastq, group)` pairs `zip(fastqs, groups)` built by `to_fastq`:
one output per file role, whose group lists the per-worker shards in
worker-index order `part0, part1, …`. -/
def toFastqPairs (prefixStr : String) (nFiles threads : ℕ) :
    List (String × List String) :=
  (List.range nFiles).map (fun i =>
    (if prefixStr = "" then s!"{i + 1}.fastq.gz" else s!"{prefixStr}_{i + 1}.fastq.gz",
     (List.range threads).map (fun j =>
       if prefixStr = "" then s!"{i + 1}_part{j}.fastq.gz"
       else s!"{prefixStr}_{i + 1}_part{j}.fastq.gz")))

/-! ## Spec-side definitions (for refinement comparisons only)

These definitions follow the words of the specification, not the source,
and are used solely to compare the specified behaviour with the embedded
code. -/

/-- Spec §4.4 tier 2: the expected number of distinct barcodes when drawing
`sampleSize` values uniformly from `4 ^ L` categories:
`spaceSize * (1 - ((spaceSize - 1) / spaceSize) ^ sampleSize)`. -/
def specExpectedDistinct (L sampleSize : ℕ) : ℚ :=
  (4 ^ L : ℚ) * (1 - (((4 ^ L : ℚ) - 1) / (4 ^ L : ℚ)) ^ sampleSize)

/-- Spec §4.4 tier 2: `deficit = expected - observedUnique` for an observed
number of distinct barcodes. -/
def specDeficit (L sampleSize observedUnique : ℕ) : ℚ :=
  specExpectedDistinct L sampleSize - (observedUnique : ℚ)

/-- Spec §4.4 tier 2: the total barcode length of a technology (sum of the
barcode regions' widths). -/
def barcodeLength (t : Technology) : ℕ :=
  (t.barcode_positions.map (fun s => s.stop - s.start)).sum

/-- Spec §4.5: the lowest-quality sentinel character under the Phred+33
encoding that the pipeline itself uses (`chr(c + 33)` in `extract_10x`),
i.e. quality 0. -/
def specLowestQualityChar : Char := '!'

/-! ## Toolkit lemmas about the dictionary model -/

section AListLemmas

variable {K V : Type} [DecidableEq K]

theorem alookup_cons (k k' : K) (v : V) (l : List (K × V)) :
    alookup k ((k', v) :: l) = if k' = k then some v else alookup k l := rfl

@[simp] theorem alookup_nil (k : K) : alookup (V := V) k [] = none := rfl

theorem alookup_append_left {k : K} {l₁ : List (K × V)} (l₂ : List (K × V))
    (h : alookup k l₁ ≠ none) : alookup k (l₁ ++ l₂) = alookup k l₁ := by
  induction l₁ with
  | nil => simp at h
  | cons e rest ih =>
    obtain ⟨k', v⟩ := e
    by_cases hk : k' = k <;> simp [alookup_cons, hk] at h ⊢
    exact ih h

theorem alookup_append_right {k : K} {l₁ : List (K × V)} (l₂ : List (K × V))
    (h : alookup k l₁ = none) : alookup k (l₁ ++ l₂) = alookup k l₂ := by
  induction l₁ with
  | nil => simp
  | cons e rest ih =>
    obtain ⟨k', v⟩ := e
    by_cases hk : k' = k <;> simp [alookup_cons, hk] at h ⊢
    exact ih h

@[simp] theorem alookup_aupsert_self (k : K) (v : V) (l : List (K × V)) :
    alookup k (aupsert k v l) = some v := by
  induction l with
  | nil => simp [aupsert, alookup_cons]
  | cons e rest ih =>
    obtain ⟨k', v'⟩ := e
    by_cases hk : k' = k <;> simp [aupsert, hk, alookup_cons, ih]

theorem alookup_aupsert_ne {k k' : K} (h : k' ≠ k) (v : V) (l : List (K × V)) :
    alookup k (aupsert k' v l) = alookup k l := by
  induction l with
  | nil => simp [aupsert, alookup_cons, h]
  | cons e rest ih =>
    obtain ⟨k'', v'⟩ := e
    by_cases hk : k'' = k'
    · subst hk
      simp [aupsert, alookup_cons, h]
    · simp [aupsert, hk, alookup_cons, ih]

theorem alookup_asetdefault_self (k : K) (d : V) (l : List (K × V)) :
    alookup k (asetdefault k d l) = some ((alookup k l).getD d) := by
  unfold asetdefault
  cases hl : alookup k l with
  | some v => simp [hl]
  | none =>
    simp only [hl]
    rw [alookup_append_right _ hl]
    simp [alookup_cons]

theorem alookup_asetdefault_ne {k k' : K} (h : k' ≠ k) (d : V) (l : List (K × V)) :
    alookup k (asetdefault k' d l) = alookup k l := by
  unfold asetdefault
  cases hl : alookup k' l with
  | some v => simp
  | none =>
    simp only
    cases hk : alookup k l with
    | some v => rw [alookup_append_left _ (by simp [hk])]; exact hk
    | none => rw [alookup_append_right _ hk]; simp [alookup_cons, h]

theorem aerase_cons_self (k : K) (v : V) (rest : List (K × V)) :
    aerase k ((k, v) :: rest) = aerase k rest := by
  simp [aerase]

theorem aerase_cons_ne {k k' : K} (h : k' ≠ k) (v : V) (rest : List (K × V)) :
    aerase k ((k', v) :: rest) = (k', v) :: aerase k rest := by
  simp [aerase, h]

@[simp] theorem alookup_aerase_self (k : K) (l : List (K × V)) :
    alookup k (aerase k l) = none := by
  induction l with
  | nil => rfl
  | cons e rest ih =>
    obtain ⟨k', v⟩ := e
    by_cases hk : k' = k
    · subst hk
      rw [aerase_cons_self]
      exact ih
    · rw [aerase_cons_ne hk, alookup_cons, if_neg hk]
      exact ih

theorem alookup_aerase_ne {k k' : K} (h : k' ≠ k) (l : List (K × V)) :
    alookup k (aerase k' l) = alookup k l := by
  induction l with
  | nil => rfl
  | cons e rest ih =>
    obtain ⟨k'', v⟩ := e
    by_cases hk : k'' = k'
    · subst hk
      rw [aerase_cons_self, ih, alookup_cons,
        if_neg (fun hh : k'' = k => h (hh ▸ rfl))]
    · rw [aerase_cons_ne hk, alookup_cons, alookup_cons, ih]

end AListLemmas

/-! ## Invalidation invariants of the extraction engine (claim C4) -/

/-- The permutation `p` is in technology `t`'s invalidated set. -/
def invMember (st : ExtractState) (t : String) (p : List ℕ) : Prop :=
  p ∈ (alookup t st.invalids).getD []

/-- No accumulated barcode or UMI list remains for any invalidated
(technology, permutation) pair. -/
def NoInvalidEntries (st : ExtractState) : Prop :=
  ∀ t p, invMember st t p →
    alookup p ((alookup t st.barcodes).getD []) = none ∧
    alookup p ((alookup t st.umis).getD []) = none

theorem noInvalidEntries_init : NoInvalidEntries initState := by
  intro t p hmem
  simp [invMember, initState] at hmem

theorem extractStep_preserves {rt : List String} {st : ExtractState}
    {ot : OrderedTechnology} {st' : ExtractState} (hInv : NoInvalidEntries st)
    (h : extractStep rt st ot = Except.ok st') :
    NoInvalidEntries st' ∧ ∀ t p, invMember st t p → invMember st' t p := by
  unfold extractStep at h
  set nm := ot.technology.name with hnm
  set pp := ot.permutation with hpp
  set bs := asetdefault nm [] st.barcodes with hbs
  set us := asetdefault nm [] st.umis with hus
  set invs := asetdefault nm [] st.invalids with hinvs
  have hlinv : alookup nm invs = some ((alookup nm st.invalids).getD []) :=
    alookup_asetdefault_self nm [] st.invalids
  have hlbs : alookup nm bs = some ((alookup nm st.barcodes).getD []) :=
    alookup_asetdefault_self nm [] st.barcodes
  have hlus : alookup nm us = some ((alookup nm st.umis).getD []) :=
    alookup_asetdefault_self nm [] st.umis
  set tinv := (alookup nm invs).getD [] with htinv
  have htinv' : tinv = (alookup nm st.invalids).getD [] := by
    rw [htinv, hlinv]; rfl
  have hbs_ne : ∀ t, t ≠ nm → alookup t bs = alookup t st.barcodes := by
    intro t ht; exact alookup_asetdefault_ne (fun hh => ht hh.symm) [] st.barcodes
  have hus_ne : ∀ t, t ≠ nm → alookup t us = alookup t st.umis := by
    intro t ht; exact alookup_asetdefault_ne (fun hh => ht hh.symm) [] st.umis
  have hinvs_ne : ∀ t, t ≠ nm → alookup t invs = alookup t st.invalids := by
    intro t ht; exact alookup_asetdefault_ne (fun hh => ht hh.symm) [] st.invalids
  by_cases hskip : pp ∈ tinv
  · -- the hypothesis is skipped: only the setdefaults happened
    rw [if_pos hskip] at h
    obtain rfl : (⟨bs, us, invs⟩ : ExtractState) = st' := by
      injection h
    refine ⟨?_, ?_⟩
    · intro t p hmem
      by_cases ht : t = nm
      · subst ht
        simp only [invMember, hlinv] at hmem
        have := hInv nm p (by simpa [invMember] using hmem)
        constructor
        · simpa [hlbs] using this.1
        · simpa [hlus] using this.2
      · have := hInv t p (by simpa [invMember, hinvs_ne t ht] using hmem)
        constructor
        · simpa [hbs_ne t ht] using this.1
        · simpa [hus_ne t ht] using this.2
    · intro t p hmem
      by_cases ht : t = nm
      · subst ht
        simpa [invMember, hlinv] using hmem
      · simpa [invMember, hinvs_ne t ht] using hmem
  · rw [if_neg hskip] at h
    set tb := asetdefault pp [] ((alookup nm bs).getD []) with htb
    set tu := asetdefault pp [] ((alookup nm us).getD []) with htu
    have htb_ne : ∀ p, p ≠ pp → alookup p tb = alookup p ((alookup nm st.barcodes).getD []) := by
      intro p hp
      rw [htb, alookup_asetdefault_ne (fun hh => hp hh.symm)]
      rw [hlbs]
      rfl
    have htu_ne : ∀ p, p ≠ pp → alookup p tu = alookup p ((alookup nm st.umis).getD []) := by
      intro p hp
      rw [htu, alookup_asetdefault_ne (fun hh => hp hh.symm)]
      rw [hlus]
      rfl
    cases hbc : extractRegions rt pp ot.technology.barcode_positions with
    | error e =>
      rw [hbc] at h
      cases humi : extractRegions rt pp ot.technology.umi_positions <;>
        rw [humi] at h <;> dsimp only at h <;> simp at h
    | ok bcr =>
      cases humi : extractRegions rt pp ot.technology.umi_positions with
      | error e =>
        obtain ⟨bcList, bcInvalid⟩ := bcr
        rw [hbc, humi] at h
        dsimp only at h
        simp at h
      | ok umir =>
        obtain ⟨bcList, bcInvalid⟩ := bcr
        obtain ⟨umiList, umiInvalid⟩ := umir
        rw [hbc, humi] at h
        dsimp only at h
        by_cases hbad : bcInvalid = true ∨ umiInvalid = true
        · rw [if_pos hbad] at h
          obtain rfl : (⟨aupsert nm (aerase pp tb) bs, aupsert nm (aerase pp tu) us,
              aupsert nm (tinv ++ [pp]) invs⟩ : ExtractState) = st' := by injection h
          refine ⟨?_, ?_⟩
          · intro t p hmem
            by_cases ht : t = nm
            · subst ht
              simp only [invMember, alookup_aupsert_self, Option.getD_some] at hmem
              rcases List.mem_append.mp hmem with hPrev | hNew
              · have hp : p ≠ pp := fun hh => hskip (hh ▸ hPrev)
                have hOld := hInv nm p (by rw [invMember, ← htinv']; exact hPrev)
                constructor
                · rw [alookup_aupsert_self, Option.getD_some,
                    alookup_aerase_ne (fun hh => hp hh.symm), htb_ne p hp]
                  exact hOld.1
                · rw [alookup_aupsert_self, Option.getD_some,
                    alookup_aerase_ne (fun hh => hp hh.symm), htu_ne p hp]
                  exact hOld.2
              · have hp : p = pp := by simpa using hNew
                subst hp
                constructor
                · rw [alookup_aupsert_self, Option.getD_some, alookup_aerase_self]
                · rw [alookup_aupsert_self, Option.getD_some, alookup_aerase_self]
            · have hmem' : invMember st t p := by
                simpa [invMember, alookup_aupsert_ne (fun hh => ht hh.symm),
                  hinvs_ne t ht] using hmem
              have := hInv t p hmem'
              constructor
              · simpa [alookup_aupsert_ne (fun hh => ht hh.symm), hbs_ne t ht] using this.1
              · simpa [alookup_aupsert_ne (fun hh => ht hh.symm), hus_ne t ht] using this.2
          · intro t p hmem
            by_cases ht : t = nm
            · subst ht
              simp only [invMember, alookup_aupsert_self, Option.getD_some]
              exact List.mem_append.mpr (Or.inl (by rwa [invMember, ← htinv'] at hmem))
            · simpa [invMember, alookup_aupsert_ne (fun hh => ht hh.symm),
                hinvs_ne t ht] using hmem
        · rw [if_neg hbad] at h
          obtain rfl : (⟨aupsert nm (aupsert pp (((alookup pp tb).getD []) ++ [bcList]) tb) bs,
              aupsert nm (aupsert pp (((alookup pp tu).getD []) ++ [umiList]) tu) us,
              invs⟩ : ExtractState) = st' := by injection h
          refine ⟨?_, ?_⟩
          · intro t p hmem
            by_cases ht : t = nm
            · subst ht
              have hmem' : p ∈ tinv := by
                simpa [invMember, hlinv, htinv'] using hmem
              have hp : p ≠ pp := fun hh => hskip (hh ▸ hmem')
              have hOld := hInv nm p (by rw [invMember, ← htinv']; exact hmem')
              constructor
              · rw [alookup_aupsert_self, Option.getD_some,
                  alookup_aupsert_ne (fun hh => hp hh.symm), htb_ne p hp]
                exact hOld.1
              · rw [alookup_aupsert_self, Option.getD_some,
                  alookup_aupsert_ne (fun hh => hp hh.symm), htu_ne p hp]
                exact hOld.2
            · have hmem' : invMember st t p := by
                simpa [invMember, hinvs_ne t ht] using hmem
              have := hInv t p hmem'
              constructor
              · simpa [alookup_aupsert_ne (fun hh => ht hh.symm), hbs_ne t ht] using this.1
              · simpa [alookup_aupsert_ne (fun hh => ht hh.symm), hus_ne t ht] using this.2
          · intro t p hmem
            by_cases ht : t = nm
            · subst ht
              simpa [invMember, hlinv, htinv'] using hmem
            · simpa [invMember, hinvs_ne t ht] using hmem

theorem extractRead_preserves :
    ∀ (techs : List OrderedTechnology) (rt : List String) (st st' : ExtractState),
      NoInvalidEntries st → extractRead techs st rt = Except.ok st' →
      NoInvalidEntries st' ∧ ∀ t p, invMember st t p → invMember st' t p := by
  intro techs
  induction techs with
  | nil =>
    intro rt st st' hInv h
    obtain rfl : st = st' := by
      have h' : (Except.ok st : Except String ExtractState) = Except.ok st' := h
      injection h'
    exact ⟨hInv, fun _ _ hm => hm⟩
  | cons ot rest ih =>
    intro rt st st' hInv h
    rw [extractRead, List.foldlM_cons] at h
    cases hstep : extractStep rt st ot with
    | error e =>
      rw [hstep] at h
      have h' : (Except.error e : Except String ExtractState) = Except.ok st' := h
      cases h'
    | ok s1 =>
      rw [hstep] at h
      obtain ⟨h1, h2⟩ := extractStep_preserves hInv hstep
      obtain ⟨h3, h4⟩ := ih rt s1 st' h1 h
      exact ⟨h3, fun t p hm => h4 t p (h2 t p hm)⟩

theorem extractTuples_preserves :
    ∀ (tuples : List (List String)) (techs : List OrderedTechnology)
      (st st' : ExtractState),
      NoInvalidEntries st → tuples.foldlM (extractRead techs) st = Except.ok st' →
      NoInvalidEntries st' ∧ ∀ t p, invMember st t p → invMember st' t p := by
  intro tuples
  induction tuples with
  | nil =>
    intro techs st st' hInv h
    obtain rfl : st = st' := by
      have h' : (Except.ok st : Except String ExtractState) = Except.ok st' := h
      injection h'
    exact ⟨hInv, fun _ _ hm => hm⟩
  | cons rt rest ih =>
    intro techs st st' hInv h
    rw [List.foldlM_cons] at h
    cases hstep : extractRead techs st rt with
    | error e =>
      rw [hstep] at h
      have h' : (Except.error e : Except String ExtractState) = Except.ok st' := h
      cases h'
    | ok s1 =>
      rw [hstep] at h
      obtain ⟨h1, h2⟩ := extractRead_preserves techs rt st s1 hInv hstep
      obtain ⟨h3, h4⟩ := ih techs s1 st' h1 h
      exact ⟨h3, fun t p hm => h4 t p (h2 t p hm)⟩

/-- C4: invalidation during extraction is monotonic.  Starting from any
state in which no invalidated (technology, permutation) pair has
accumulated entries, a successful extraction run (`extractFrom`; the entry
point `extract_barcodes_umis` is `extractFrom initState`) (a) keeps every
already-invalid hypothesis invalid — it never revalidates and is skipped,
and (b) leaves no accumulated barcode or UMI list for any pair in the
per-technology invalidated sets of the final state. -/
theorem extract_invalidation_monotonic
    (reads : List (String × List String)) (technologies : List OrderedTechnology)
    (s st : ExtractState) (hInv : NoInvalidEntries s)
    (h : extractFrom s reads technologies = Except.ok st) :
    NoInvalidEntries st ∧ ∀ t p, invMember s t p → invMember st t p :=
  extractTuples_preserves (zipStar (reads.map Prod.snd)) technologies s st hInv h

/-- Witness for C4 at a concrete run that invalidates `10xv1 (0,1)` (the
reads are shorter than the barcode region). -/
theorem extract_invalidation_monotonic_witness :
    NoInvalidEntries (⟨[("10xv1", [])], [("10xv1", [])],
      [("10xv1", [[0, 1]])]⟩ : ExtractState) ∧
    ∀ t p, invMember initState t p →
      invMember (⟨[("10xv1", [])], [("10xv1", [])],
        [("10xv1", [[0, 1]])]⟩ : ExtractState) t p :=
  extract_invalidation_monotonic
    [("1", ["22222"]), ("2", ["44444"])] [⟨tech10xv1, [0, 1]⟩]
    initState ⟨[("10xv1", [])], [("10xv1", [])], [("10xv1", [[0, 1]])]⟩
    noInvalidEntries_init (by rfl)

/-! ## Round-trip extraction (claim C5) -/

theorem pget_range {n i : ℕ} (h : i < n) : pget (List.range n) i = Except.ok i := by
  simp [pget, List.get?_eq_getElem?, List.getElem?_range, h]

theorem pget_getD {α : Type} {xs : List α} {i : ℕ} (d : α) (h : i < xs.length) :
    pget xs i = Except.ok (xs.getD i d) := by
  simp [pget, List.get?_eq_getElem?, List.getElem?_eq_getElem h,
    List.getD_eq_getElem?_getD]

/-- The list of substrings one read tuple contributes for a list of
regions, under the identity permutation. -/
def regionSlices (positions : List ReadSubstring) (rt : List String) : List String :=
  positions.map (fun r => ((rt.getD r.file "").drop r.start).take (r.stop - r.start))

theorem extractRegions_valid (rt : List String) (n : ℕ)
    (positions : List ReadSubstring)
    (hv : ∀ r ∈ positions, r.file < n ∧ r.file < rt.length ∧
      r.start < (rt.getD r.file "").length ∧ r.stop ≤ (rt.getD r.file "").length) :
    extractRegions rt (List.range n) positions =
      Except.ok (regionSlices positions rt, false) := by
  induction positions with
  | nil => rfl
  | cons r rest ih =>
    obtain ⟨h1, h2, h3, h4⟩ := hv r (by simp)
    have hcond : ¬((rt.getD r.file "").length ≤ r.start ∨
        (rt.getD r.file "").length < r.stop) := by omega
    rw [extractRegions, pget_range h1]
    dsimp only
    rw [pget_getD "" h2]
    dsimp only
    rw [if_neg hcond, ih (fun x hx => hv x (by simp [hx]))]
    simp [regionSlices]

/-- The state reached while a single hypothesis `(t, range n)` stays valid:
`B`/`U` are the barcode/UMI entry lists accumulated so far. -/
def singleState (t : Technology) (n : ℕ) (B U : List (List String)) : ExtractState :=
  ⟨[(t.name, [(List.range n, B)])], [(t.name, [(List.range n, U)])], [(t.name, [])]⟩

theorem extractStep_valid_init (t : Technology) (rt : List String) (n : ℕ)
    (hb : ∀ r ∈ t.barcode_positions, r.file < n ∧ r.file < rt.length ∧
      r.start < (rt.getD r.file "").length ∧ r.stop ≤ (rt.getD r.file "").length)
    (hu : ∀ r ∈ t.umi_positions, r.file < n ∧ r.file < rt.length ∧
      r.start < (rt.getD r.file "").length ∧ r.stop ≤ (rt.getD r.file "").length) :
    extractStep rt initState ⟨t, List.range n⟩ =
      Except.ok (singleState t n [regionSlices t.barcode_positions rt]
        [regionSlices t.umi_positions rt]) := by
  have hbc := extractRegions_valid rt n t.barcode_positions hb
  have humi := extractRegions_valid rt n t.umi_positions hu
  simp [extractStep, hbc, humi, initState, singleState, asetdefault, alookup, aupsert]

theorem extractStep_valid_single (t : Technology) (rt : List String) (n : ℕ)
    (B U : List (List String))
    (hb : ∀ r ∈ t.barcode_positions, r.file < n ∧ r.file < rt.length ∧
      r.start < (rt.getD r.file "").length ∧ r.stop ≤ (rt.getD r.file "").length)
    (hu : ∀ r ∈ t.umi_positions, r.file < n ∧ r.file < rt.length ∧
      r.start < (rt.getD r.file "").length ∧ r.stop ≤ (rt.getD r.file "").length) :
    extractStep rt (singleState t n B U) ⟨t, List.range n⟩ =
      Except.ok (singleState t n (B ++ [regionSlices t.barcode_positions rt])
        (U ++ [regionSlices t.umi_positions rt])) := by
  have hbc := extractRegions_valid rt n t.barcode_positions hb
  have humi := extractRegions_valid rt n t.umi_positions hu
  simp [extractStep, hbc, humi, singleState, asetdefault, alookup, aupsert]

theorem extractTuples_valid (t : Technology) (n : ℕ) :
    ∀ (tuples : List (List String)),
      (∀ rt ∈ tuples,
        (∀ r ∈ t.barcode_positions, r.file < n ∧ r.file < rt.length ∧
          r.start < (rt.getD r.file "").length ∧ r.stop ≤ (rt.getD r.file "").length) ∧
        (∀ r ∈ t.umi_positions, r.file < n ∧ r.file < rt.length ∧
          r.start < (rt.getD r.file "").length ∧ r.stop ≤ (rt.getD r.file "").length)) →
      ∀ (B U : List (List String)),
      tuples.foldlM (extractRead [⟨t, List.range n⟩]) (singleState t n B U) =
        Except.ok (singleState t n
          (B ++ tuples.map (regionSlices t.barcode_positions))
          (U ++ tuples.map (regionSlices t.umi_positions))) := by
  intro tuples
  induction tuples with
  | nil =>
    intro _ B U
    simp only [List.foldlM_nil, List.map_nil, List.append_nil]
    rfl
  | cons rt rest ih =>
    intro hv B U
    rw [List.foldlM_cons]
    have hstep := extractStep_valid_single t rt n B U (hv rt (by simp)).1 (hv rt (by simp)).2
    have hread : extractRead [⟨t, List.range n⟩] (singleState t n B U) rt =
        Except.ok (singleState t n (B ++ [regionSlices t.barcode_positions rt])
          (U ++ [regionSlices t.umi_positions rt])) := by
      rw [extractRead, List.foldlM_cons, hstep]
      rfl
    rw [hread]
    have := ih (fun x hx => hv x (by simp [hx]))
      (B ++ [regionSlices t.barcode_positions rt])
      (U ++ [regionSlices t.umi_positions rt])
    simpa using this

theorem foldr_min_const (m : ℕ) :
    ∀ (xs : List ℕ), (∀ x ∈ xs, x = m) → xs.foldr min m = m := by
  intro xs h
  induction xs with
  | nil => rfl
  | cons x rest ih =>
    have hx : x = m := h x (by simp)
    have := ih (fun y hy => h y (by simp [hy]))
    simp [hx, this]

theorem zipStar_const_length (ls : List (List String)) (m : ℕ) (hne : ls ≠ [])
    (h : ∀ l ∈ ls, l.length = m) :
    zipStar ls = (List.range m).map (fun j => ls.map (fun l => l.getD j "")) := by
  cases ls with
  | nil => cases hne rfl
  | cons l0 rest =>
    have h0 : l0.length = m := h l0 (by simp)
    have hinner : (rest.map List.length).foldr min m = m :=
      foldr_min_const m (rest.map List.length)
        (by intro x hx; obtain ⟨l, hl, rfl⟩ := List.mem_map.mp hx; exact h l (by simp [hl]))
    have hfold : (((l0 :: rest).map List.length).foldr min
        (((l0 :: rest).headD []).length)) = m := by
      simp [h0, hinner]
    rw [zipStar, hfold]

/-- C5: for every technology and every read sample whose reads exactly
satisfy the technology's declared barcode and UMI regions (every read is
longer than each region's `start` and at least as long as each region's
`stop`), extraction under the identity permutation succeeds, never
invalidates the hypothesis (the technology's invalidated set is empty), and
accumulates exactly one barcode entry and one UMI entry per sampled read
position (the entry lists are the per-read region slices, one per read). -/
theorem extract_roundtrip (t : Technology) (reads : List (String × List String)) (m : ℕ)
    (hne : reads ≠ [])
    (hlen : ∀ f ∈ reads, f.2.length = m)
    (hreg : ∀ r ∈ t.barcode_positions ++ t.umi_positions,
      r.file < reads.length ∧
      ∀ f ∈ reads, ∀ rd ∈ f.2, r.start < rd.length ∧ r.stop ≤ rd.length) :
    ∃ st, extract_barcodes_umis reads [⟨t, List.range reads.length⟩] = Except.ok st ∧
      (alookup t.name st.invalids).getD [] = [] ∧
      (alookup (List.range reads.length) ((alookup t.name st.barcodes).getD [])).getD []
        = (zipStar (reads.map Prod.snd)).map (regionSlices t.barcode_positions) ∧
      (alookup (List.range reads.length) ((alookup t.name st.umis).getD [])).getD []
        = (zipStar (reads.map Prod.snd)).map (regionSlices t.umi_positions) ∧
      (zipStar (reads.map Prod.snd)).length = m := by
  have hmapne : reads.map Prod.snd ≠ [] := by
    intro hcon
    exact hne (List.map_eq_nil_iff.mp hcon)
  have hmaplen : ∀ l ∈ reads.map Prod.snd, l.length = m := by
    intro l hl
    obtain ⟨f, hf, rfl⟩ := List.mem_map.mp hl
    exact hlen f hf
  have htuples := zipStar_const_length (reads.map Prod.snd) m hmapne hmaplen
  have hlenm : (zipStar (reads.map Prod.snd)).length = m := by
    rw [htuples]; simp
  -- every read tuple satisfies both region families
  have hv : ∀ rt ∈ zipStar (reads.map Prod.snd),
      (∀ r ∈ t.barcode_positions, r.file < reads.length ∧ r.file < rt.length ∧
        r.start < (rt.getD r.file "").length ∧ r.stop ≤ (rt.getD r.file "").length) ∧
      (∀ r ∈ t.umi_positions, r.file < reads.length ∧ r.file < rt.length ∧
        r.start < (rt.getD r.file "").length ∧ r.stop ≤ (rt.getD r.file "").length) := by
    intro rt hrt
    rw [htuples] at hrt
    obtain ⟨j, hj, rfl⟩ := List.mem_map.mp hrt
    have hjm : j < m := List.mem_range.mp hj
    have key : ∀ r ∈ t.barcode_positions ++ t.umi_positions,
        r.file < reads.length ∧
        r.file < ((reads.map Prod.snd).map (fun l => l.getD j "")).length ∧
        r.start < (((reads.map Prod.snd).map (fun l => l.getD j "")).getD r.file "").length ∧
        r.stop ≤ (((reads.map Prod.snd).map (fun l => l.getD j "")).getD r.file "").length := by
      intro r hr
      obtain ⟨hfile, hrd⟩ := hreg r hr
      have hgd : ((reads.map Prod.snd).map (fun l => l.getD j "")).getD r.file "" =
          (reads.get ⟨r.file, hfile⟩).2.getD j "" := by
        rw [List.getD_eq_getElem?_getD, List.getElem?_eq_getElem (by simpa using hfile)]
        simp
      have hfmem : reads.get ⟨r.file, hfile⟩ ∈ reads := List.get_mem reads r.file hfile
      have hjlen : j < (reads.get ⟨r.file, hfile⟩).2.length := by
        rw [hlen (reads.get ⟨r.file, hfile⟩) hfmem]
        exact hjm
      have hrdmem : (reads.get ⟨r.file, hfile⟩).2.getD j "" ∈ (reads.get ⟨r.file, hfile⟩).2 := by
        rw [List.getD_eq_getElem?_getD, List.getElem?_eq_getElem hjlen]
        simp only [Option.getD_some]
        exact List.getElem_mem hjlen
      obtain ⟨hstart, hstop⟩ := hrd _ hfmem _ hrdmem
      refine ⟨hfile, by simpa using hfile, ?_, ?_⟩
      · rw [hgd]; exact hstart
      · rw [hgd]; exact hstop
    constructor
    · intro r hr
      exact key r (List.mem_append.mpr (Or.inl hr))
    · intro r hr
      exact key r (List.mem_append.mpr (Or.inr hr))
  have hmain : extract_barcodes_umis reads [⟨t, List.range reads.length⟩] =
      extractFrom initState reads [⟨t, List.range reads.length⟩] := by
    simp [extract_barcodes_umis]
  cases htup : zipStar (reads.map Prod.snd) with
  | nil =>
    refine ⟨initState, ?_, by simp [initState], ?_, ?_, htup ▸ hlenm⟩
    · rw [hmain, extractFrom, htup]
      rfl
    · simp [initState]
    · simp [initState]
  | cons rt0 rest =>
    have hv0 := hv rt0 (htup ▸ List.mem_cons_self rt0 rest)
    have hvrest : ∀ rt ∈ rest, _ := fun rt hrt => hv rt (htup ▸ List.mem_cons_of_mem rt0 hrt)
    have hstep := extractStep_valid_init t rt0 reads.length hv0.1 hv0.2
    have hread : extractRead [⟨t, List.range reads.length⟩] initState rt0 =
        Except.ok (singleState t reads.length [regionSlices t.barcode_positions rt0]
          [regionSlices t.umi_positions rt0]) := by
      rw [extractRead, List.foldlM_cons, hstep]
      rfl
    have hrest := extractTuples_valid t reads.length rest hvrest
      [regionSlices t.barcode_positions rt0] [regionSlices t.umi_positions rt0]
    refine ⟨singleState t reads.length
      ((rt0 :: rest).map (regionSlices t.barcode_positions))
      ((rt0 :: rest).map (regionSlices t.umi_positions)), ?_, ?_, ?_, ?_, ?_⟩
    · rw [hmain, extractFrom, htup, List.foldlM_cons, hread]
      have : (Except.ok (singleState t reads.length
            [regionSlices t.barcode_positions rt0] [regionSlices t.umi_positions rt0]) >>=
          fun s => rest.foldlM (extractRead [⟨t, List.range reads.length⟩]) s) =
          rest.foldlM (extractRead [⟨t, List.range reads.length⟩])
            (singleState t reads.length [regionSlices t.barcode_positions rt0]
              [regionSlices t.umi_positions rt0]) := rfl
      rw [this, hrest]
      simp [singleState]
    · simp [singleState, alookup]
    · simp [singleState, alookup]
    · simp [singleState, alookup]
    · exact htup ▸ hlenm

/-- Witness for C5: three files of one 14-character read each exactly
satisfy the `10xv1` layout. -/
theorem extract_roundtrip_witness :
    ∃ st, extract_barcodes_umis
        [("1", ["AAAAAAAAAAAAAA"]), ("2", ["AAAAAAAAAAAAAA"]), ("3", ["AAAAAAAAAAAAAA"])]
        [⟨tech10xv1, List.range ([("1", ["AAAAAAAAAAAAAA"]), ("2", ["AAAAAAAAAAAAAA"]),
          ("3", ["AAAAAAAAAAAAAA"])] : List (String × List String)).length⟩] = Except.ok st ∧
      (alookup tech10xv1.name st.invalids).getD [] = [] ∧
      (alookup (List.range ([("1", ["AAAAAAAAAAAAAA"]), ("2", ["AAAAAAAAAAAAAA"]),
          ("3", ["AAAAAAAAAAAAAA"])] : List (String × List String)).length)
        ((alookup tech10xv1.name st.barcodes).getD [])).getD []
        = (zipStar (([("1", ["AAAAAAAAAAAAAA"]), ("2", ["AAAAAAAAAAAAAA"]),
          ("3", ["AAAAAAAAAAAAAA"])] : List (String × List String)).map Prod.snd)).map
            (regionSlices tech10xv1.barcode_positions) ∧
      (alookup (List.range ([("1", ["AAAAAAAAAAAAAA"]), ("2", ["AAAAAAAAAAAAAA"]),
          ("3", ["AAAAAAAAAAAAAA"])] : List (String × List String)).length)
        ((alookup tech10xv1.name st.umis).getD [])).getD []
        = (zipStar (([("1", ["AAAAAAAAAAAAAA"]), ("2", ["AAAAAAAAAAAAAA"]),
          ("3", ["AAAAAAAAAAAAAA"])] : List (String × List String)).map Prod.snd)).map
            (regionSlices tech10xv1.umi_positions) ∧
      (zipStar (([("1", ["AAAAAAAAAAAAAA"]), ("2", ["AAAAAAAAAAAAAA"]),
        ("3", ["AAAAAAAAAAAAAA"])] : List (String × List String)).map Prod.snd)).length = 1 :=
  extract_roundtrip tech10xv1
    [("1", ["AAAAAAAAAAAAAA"]), ("2", ["AAAAAAAAAAAAAA"]), ("3", ["AAAAAAAAAAAAAA"])] 1
    (by simp) (by decide) (by decide)

/-! ## Tier-1 selection (claims C1, C2, C3, C6) -/

theorem selectFold_spec :
    ∀ (cands : List Candidate) (acc : Option OrderedTechnology × ℕ),
      (cands.foldl (fun acc c =>
          if (c.2.1 : ℚ) / (c.2.2 : ℚ) > 1/2 ∧ c.2.1 > acc.2 then (some c.1, c.2.1) else acc)
          acc = acc ∧
        ∀ c ∈ cands, (c.2.1 : ℚ) / (c.2.2 : ℚ) > 1/2 → c.2.1 ≤ acc.2) ∨
      (∃ pre c post, cands = pre ++ c :: post ∧
        cands.foldl (fun acc c =>
          if (c.2.1 : ℚ) / (c.2.2 : ℚ) > 1/2 ∧ c.2.1 > acc.2 then (some c.1, c.2.1) else acc)
          acc = (some c.1, c.2.1) ∧
        (c.2.1 : ℚ) / (c.2.2 : ℚ) > 1/2 ∧ acc.2 < c.2.1 ∧
        (∀ e ∈ pre, (e.2.1 : ℚ) / (e.2.2 : ℚ) > 1/2 → e.2.1 < c.2.1) ∧
        (∀ e ∈ post, (e.2.1 : ℚ) / (e.2.2 : ℚ) > 1/2 → e.2.1 ≤ c.2.1)) := by
  intro cands
  induction cands with
  | nil => intro acc; exact Or.inl ⟨rfl, by simp⟩
  | cons x rest ih =>
    intro acc
    rw [List.foldl_cons]
    by_cases hx : (x.2.1 : ℚ) / (x.2.2 : ℚ) > 1/2 ∧ x.2.1 > acc.2
    · rw [if_pos hx]
      rcases ih (some x.1, x.2.1) with ⟨heq, hall⟩ |
          ⟨pre, c, post, hsplit, hres, hq, hgt, hpre, hpost⟩
      · refine Or.inr ⟨[], x, rest, by simp, heq, hx.1, hx.2, by simp, ?_⟩
        intro e he hq'
        exact hall e he hq'
      · refine Or.inr ⟨x :: pre, c, post, by simp [hsplit], hres, hq,
          lt_trans hx.2 hgt, ?_, hpost⟩
        intro e he hq'
        rcases List.mem_cons.mp he with rfl | he'
        · exact hgt
        · exact hpre e he' hq'
    · rw [if_neg hx]
      rcases ih acc with ⟨heq, hall⟩ |
          ⟨pre, c, post, hsplit, hres, hq, hgt, hpre, hpost⟩
      · refine Or.inl ⟨heq, ?_⟩
        intro c hc hqc
        rcases List.mem_cons.mp hc with rfl | hc'
        · exact le_of_not_lt (fun hlt => hx ⟨hqc, hlt⟩)
        · exact hall c hc' hqc
      · refine Or.inr ⟨x :: pre, c, post, by simp [hsplit], hres, hq, hgt, ?_, hpost⟩
        intro e he hq'
        rcases List.mem_cons.mp he with rfl | he'
        · exact lt_of_le_of_lt (le_of_not_lt (fun hlt => hx ⟨hq', hlt⟩)) hgt
        · exact hpre e he' hq'

theorem scoreTechnology_ok_props (whitelist : List String) (t : Technology) :
    ∀ (entries : List (List ℕ × List (List String))) (cs : List Candidate),
      scoreTechnology whitelist t entries = Except.ok cs →
      ∀ c ∈ cs, c.1.technology = t ∧ 0 < c.2.2 := by
  intro entries
  induction entries with
  | nil =>
    intro cs h c hc
    obtain rfl : ([] : List Candidate) = cs := by
      have h' : (Except.ok ([] : List Candidate) : Except String (List Candidate)) =
        Except.ok cs := h
      injection h'
    cases hc
  | cons pe rest ih =>
    intro cs h c hc
    rw [scoreTechnology, List.mapM_cons] at h
    by_cases hn : pe.2.length = 0
    · rw [if_pos hn] at h
      have h' : (Except.error "ZeroDivisionError" : Except String (List Candidate)) =
          Except.ok cs := h
      cases h'
    · rw [if_neg hn] at h
      cases hrest : (rest.mapM (fun pe =>
          if pe.2.length = 0 then (Except.error "ZeroDivisionError" : Except String Candidate)
          else Except.ok ((⟨t, pe.1⟩ : OrderedTechnology),
            pe.2.countP (fun bcList => decide (String.join bcList ∈ whitelist)),
            pe.2.length))) with
      | error e =>
        rw [hrest] at h
        have h' : (Except.error e : Except String (List Candidate)) = Except.ok cs := h
        cases h'
      | ok cs' =>
        rw [hrest] at h
        have h' : (Except.ok (((⟨t, pe.1⟩ : OrderedTechnology),
            pe.2.countP (fun bcList => decide (String.join bcList ∈ whitelist)),
            pe.2.length) :: cs') : Except String (List Candidate)) = Except.ok cs := h
        obtain rfl : _ = cs := by injection h'
        rcases List.mem_cons.mp hc with rfl | hc'
        · exact ⟨rfl, Nat.pos_of_ne_zero hn⟩
        · exact ih cs' (by rw [scoreTechnology]; exact hrest) c hc'

theorem tierOneFold_props (wl : String → Option (List String)) (st : ExtractState)
    (S : List Technology) :
    ∀ (bts : List Technology), (∀ t ∈ bts, t ∈ S) →
      ∀ (acc cands : List Candidate),
        (∀ c ∈ acc, c.1.technology ∈ S ∧ 0 < c.2.2) →
        bts.foldlM (tierOneStep wl st) acc = Except.ok cands →
        ∀ c ∈ cands, c.1.technology ∈ S ∧ 0 < c.2.2 := by
  intro bts
  induction bts with
  | nil =>
    intro _ acc cands hacc h
    obtain rfl : acc = cands := by
      have h' : (Except.ok acc : Except String (List Candidate)) = Except.ok cands := h
      injection h'
    exact hacc
  | cons t rest ih =>
    intro hmem acc cands hacc h
    rw [List.foldlM_cons] at h
    cases hstep : tierOneStep wl st acc t with
    | error e =>
      rw [hstep] at h
      have h' : (Except.error e : Except String (List Candidate)) = Except.ok cands := h
      cases h'
    | ok acc' =>
      rw [hstep] at h
      have hacc' : ∀ c ∈ acc', c.1.technology ∈ S ∧ 0 < c.2.2 := by
        unfold tierOneStep at hstep
        cases hw : ofOption (wl (t.whitelist_path.getD "")) "ResourceUnavailable" with
        | error e =>
          rw [hw] at hstep
          have h' : (Except.error e : Except String (List Candidate)) = Except.ok acc' := hstep
          cases h'
        | ok whitelist =>
          rw [hw] at hstep
          dsimp only at hstep
          cases he : ofOption (alookup t.name st.barcodes) "KeyError" with
          | error e =>
            rw [he] at hstep
            have h' : (Except.error e : Except String (List Candidate)) = Except.ok acc' := hstep
            cases h'
          | ok entries =>
            rw [he] at hstep
            dsimp only at hstep
            cases hs : scoreTechnology whitelist t entries with
            | error e =>
              rw [hs] at hstep
              have h' : (Except.error e : Except String (List Candidate)) =
                Except.ok acc' := hstep
              cases h'
            | ok cs =>
              rw [hs] at hstep
              obtain rfl : acc ++ cs = acc' := by
                have h' : (Except.ok (acc ++ cs) : Except String (List Candidate)) =
                  Except.ok acc' := hstep
                injection h'
              intro c hc
              rcases List.mem_append.mp hc with hc' | hc'
              · exact hacc c hc'
              · obtain ⟨hct, hcn⟩ := scoreTechnology_ok_props whitelist t entries cs hs c hc'
                exact ⟨hct ▸ hmem t (by simp), hcn⟩
      exact ih (fun x hx => hmem x (by simp [hx])) acc' cands hacc' h

theorem tierOneCandidates_props (wl : String → Option (List String)) (st : ExtractState)
    (technologies : List OrderedTechnology) (cands : List Candidate)
    (h : tierOneCandidates wl st technologies = Except.ok cands) :
    ∀ c ∈ cands, c.1.technology ∈ barcodeTechnologies technologies ∧ 0 < c.2.2 :=
  tierOneFold_props wl st (barcodeTechnologies technologies)
    (barcodeTechnologies technologies) (fun _ ht => ht) [] cands (by simp) h

/-- Unfolding of `filter_barcodes_umis` once the extraction result and the
candidate list are known. -/
theorem filter_barcodes_umis_eq (wl : String → Option (List String))
    (reads : List (String × List String)) (technologies : List OrderedTechnology)
    (st : ExtractState) (cands : List Candidate)
    (hne : technologies.isEmpty = false)
    (hex : extractFrom initState reads technologies = Except.ok st)
    (hca : tierOneCandidates wl st technologies = Except.ok cands) :
    filter_barcodes_umis wl reads technologies =
      (match (selectCandidate cands).1 with
        | some o => Except.ok [o]
        | none => Except.ok []) := by
  unfold filter_barcodes_umis
  simp only [hne, Bool.false_eq_true, if_false]
  rw [hex]
  dsimp only
  rw [hca]

/-- Error propagation: a missing whitelist file for any technology in the
scored list makes the candidate-building fold raise. -/
theorem tierOneFold_error (wl : String → Option (List String)) (st : ExtractState) :
    ∀ (bts : List Technology) (acc : List Candidate),
      (∃ t ∈ bts, wl (t.whitelist_path.getD "") = none) →
      ∃ e, bts.foldlM (tierOneStep wl st) acc = Except.error e := by
  intro bts
  induction bts with
  | nil =>
    intro acc h
    obtain ⟨t, ht, _⟩ := h
    cases ht
  | cons t rest ih =>
    intro acc h
    cases hstep : tierOneStep wl st acc t with
    | error e =>
      refine ⟨e, ?_⟩
      rw [List.foldlM_cons, hstep]
      rfl
    | ok acc' =>
      obtain ⟨t', ht', hwl'⟩ := h
      rcases List.mem_cons.mp ht' with rfl | hrest
      · exfalso
        unfold tierOneStep at hstep
        rw [hwl'] at hstep
        have h' : (Except.error "ResourceUnavailable" : Except String (List Candidate)) =
          Except.ok acc' := hstep
        cases h'
      · obtain ⟨e, herr⟩ := ih acc' ⟨t', hrest, hwl'⟩
        refine ⟨e, ?_⟩
        rw [List.foldlM_cons, hstep]
        exact herr

/-- C2 amended: a missing or unreadable whitelist resource for any
whitelist-backed technology among the scored hypotheses makes the whole
classification call raise (the exception from `open_as_text` propagates and
aborts the run); no per-technology disqualification happens. -/
theorem whitelist_missing_aborts (wl : String → Option (List String))
    (reads : List (String × List String)) (technologies : List OrderedTechnology)
    (t : Technology) (hne : technologies.isEmpty = false)
    (ht : t ∈ barcodeTechnologies technologies)
    (hwl : wl (t.whitelist_path.getD "") = none) :
    ∃ e, filter_barcodes_umis wl reads technologies = Except.error e := by
  unfold filter_barcodes_umis
  simp only [hne, Bool.false_eq_true, if_false]
  cases hex : extractFrom initState reads technologies with
  | error e => exact ⟨e, rfl⟩
  | ok st =>
    obtain ⟨e, herr⟩ := tierOneFold_error wl st (barcodeTechnologies technologies) []
      ⟨t, ht, hwl⟩
    refine ⟨e, ?_⟩
    dsimp only
    rw [show tierOneCandidates wl st technologies = Except.error e from herr]

/-- The whitelist environment of the tier-1 scenarios: the `10xv3`
whitelist holds the barcode used by the sample, every other whitelist file
is readable but empty. -/
def wlTier1 : String → Option (List String) := fun p =>
  if p = "10xv3_whitelist.txt.gz" then some ["ACGTACGTACGTACGT"] else some []

/-- Like `wlTier1`, but the `10xv2` whitelist file is missing. -/
def wlTier1Missing : String → Option (List String) := fun p =>
  if p = "10xv2_whitelist.txt.gz" then none
  else if p = "10xv3_whitelist.txt.gz" then some ["ACGTACGTACGTACGT"] else some []

/-- Two FASTQ files whose first file's reads are 28 characters, starting
with the whitelisted 16-mer. -/
def readsTier1 : List (String × List String) :=
  [("a", ["ACGTACGTACGTACGTTTTTTTTTTTTT"]), ("b", ["GGGGG"])]

/-- The `10xv2` and `10xv3` identity-order hypotheses. -/
def techsTier1 : List OrderedTechnology :=
  [⟨tech10xv2, [0, 1]⟩, ⟨tech10xv3, [0, 1]⟩]

/-- The extraction state of the tier-1 scenario. -/
def stTier1 : ExtractState :=
  ⟨[("10xv2", [([0, 1], [["ACGTACGTACGTACGT"]])]),
    ("10xv3", [([0, 1], [["ACGTACGTACGTACGT"]])])],
   [("10xv2", [([0, 1], [["TTTTTTTTTT"]])]),
    ("10xv3", [([0, 1], [["TTTTTTTTTTTT"]])])],
   [("10xv2", []), ("10xv3", [])]⟩

/-- The tier-1 candidates of the scenario: `10xv2` matches 0 of 1 entries,
`10xv3` matches 1 of 1. -/
def candsTier1 : List Candidate :=
  [((⟨tech10xv2, [0, 1]⟩ : OrderedTechnology), 0, 1),
   ((⟨tech10xv3, [0, 1]⟩ : OrderedTechnology), 1, 1)]

/-- Evaluation of the classifier on the tier-1 scenario: `10xv3 (0,1)`
wins. -/
theorem filterTier1_eval :
    filter_barcodes_umis wlTier1 readsTier1 techsTier1 =
      Except.ok [⟨tech10xv3, [0, 1]⟩] := by
  have heq := filter_barcodes_umis_eq wlTier1 readsTier1 techsTier1 stTier1 candsTier1
    rfl (by rfl) (by rfl)
  rw [heq]
  have hsel : (selectCandidate candsTier1).1 =
      some (⟨tech10xv3, [0, 1]⟩ : OrderedTechnology) := by
    norm_num [selectCandidate, candsTier1]
  rw [hsel]

/-- C2 counterexample: with the `10xv2` whitelist missing the run aborts
with the resource error instead of skipping `10xv2`, even though `10xv3`
qualifies on the same input when the file is present (second conjunct). -/
theorem whitelist_missing_counterexample :
    filter_barcodes_umis wlTier1Missing readsTier1 techsTier1 =
      Except.error "ResourceUnavailable" ∧
    filter_barcodes_umis wlTier1 readsTier1 techsTier1 =
      Except.ok [⟨tech10xv3, [0, 1]⟩] :=
  ⟨by rfl, filterTier1_eval⟩

/-- Witness for C2 (amended): the scenario of the counterexample, through
the general theorem. -/
theorem whitelist_missing_aborts_witness :
    ∃ e, filter_barcodes_umis wlTier1Missing readsTier1 techsTier1 = Except.error e :=
  whitelist_missing_aborts wlTier1Missing readsTier1 techsTier1 tech10xv2
    rfl (by decide) rfl

/-- C3 (the claim is what the spec demands; the code crashes): with two
input files and zero sampled reads, every whitelist readable, tier-1
scoring raises `KeyError` on `barcodes['10xv2']` — the extraction loop
never ran, so the `barcodes` dictionary has no keys — instead of reporting
an empty hypothesis set.  The technologies argument is exactly what
`filter_files` passes for two files. -/
theorem classifier_zero_sample_crashes :
    filter_barcodes_umis (fun _ => some []) [("f1", []), ("f2", [])]
      (filter_files [("f1", []), ("f2", [])] []) = Except.error "KeyError" := rfl

/-- A two-file, `dropseq`-style technology without a whitelist (the shape
of the registry's commented-out entries), used to probe tier-2 behaviour. -/
def dropseqTech : Technology :=
  { name := "dropseq", description := "DropSeq", n_files := 2, reads_file := 1,
    umi_positions := [⟨0, 0, 12⟩], barcode_positions := [⟨0, 12, 20⟩],
    whitelist_path := none }

/-- Two files of two identical reads each; the `dropseq` hypothesis
extracts the same 8-mer barcode twice (one observed unique barcode). -/
def readsDropseq : List (String × List String) :=
  [("r1", ["AAAAAAAAAAAACCCCCCCC", "AAAAAAAAAAAACCCCCCCC"]), ("r2", ["GGGG", "GGGG"])]

/-- C1 counterexample: the `dropseq (0,1)` hypothesis survives extraction
with sample size 2 and one observed unique barcode, so the spec's tier-2
deficit for it is positive (`specDeficit = 65535/65536 > 0`) and the claim
requires the classifier to return it; the classifier returns the empty
list — no deficit computation exists in the code (the non-whitelist tier
is commented out). -/
theorem no_tier_two_counterexample :
    filter_barcodes_umis (fun _ => some []) readsDropseq [⟨dropseqTech, [0, 1]⟩] =
      Except.ok [] ∧
    extract_barcodes_umis readsDropseq [⟨dropseqTech, [0, 1]⟩] = Except.ok
      ⟨[("dropseq", [([0, 1], [["CCCCCCCC"], ["CCCCCCCC"]])])],
       [("dropseq", [([0, 1], [["AAAAAAAAAAAA"], ["AAAAAAAAAAAA"]])])],
       [("dropseq", [])]⟩ ∧
    ([["CCCCCCCC"], ["CCCCCCCC"]].map String.join).dedup.length = 1 ∧
    specDeficit (barcodeLength dropseqTech) 2 1 > 0 ∧
    (Except.ok [] : Except String (List OrderedTechnology)) ≠
      Except.ok [⟨dropseqTech, [0, 1]⟩] :=
  ⟨rfl, rfl, rfl,
    by norm_num [specDeficit, specExpectedDistinct, barcodeLength, dropseqTech], by simp⟩

/-- C1 amended: whatever `filter_barcodes_umis` returns on success comes
from tier 1 only: every returned hypothesis is a registry technology with a
truthy whitelist path.  Non-whitelist technologies are never scored or
returned; when no whitelist-backed candidate qualifies the result is
empty. -/
theorem tier_two_absent (wl : String → Option (List String))
    (reads : List (String × List String)) (technologies : List OrderedTechnology)
    (l : List OrderedTechnology)
    (h : filter_barcodes_umis wl reads technologies = Except.ok l) :
    ∀ ot ∈ l, pyTruthy ot.technology.whitelist_path = true ∧
      ot.technology ∈ TECHNOLOGIES := by
  unfold filter_barcodes_umis at h
  set T := if technologies.isEmpty then
    all_ordered_technologies TECHNOLOGIES reads.length else technologies with hT
  dsimp only at h
  cases hex : extractFrom initState reads T with
  | error e =>
    rw [hex] at h
    have h' : (Except.error e : Except String (List OrderedTechnology)) = Except.ok l := h
    cases h'
  | ok st =>
    rw [hex] at h
    dsimp only at h
    cases hca : tierOneCandidates wl st T with
    | error e =>
      rw [hca] at h
      have h' : (Except.error e : Except String (List OrderedTechnology)) = Except.ok l := h
      cases h'
    | ok cands =>
      rw [hca] at h
      dsimp only at h
      have hprops := tierOneCandidates_props wl st T cands hca
      rcases selectFold_spec cands (none, 0) with ⟨heq, _⟩ |
          ⟨pre, c, post, hsplit, hres, _, _, _, _⟩
      · have hsel : selectCandidate cands = (none, 0) := heq
        rw [hsel] at h
        obtain rfl : ([] : List OrderedTechnology) = l := by
          have h' : (Except.ok ([] : List OrderedTechnology) :
            Except String (List OrderedTechnology)) = Except.ok l := h
          injection h'
        intro ot hot
        cases hot
      · have hsel : selectCandidate cands = (some c.1, c.2.1) := hres
        rw [hsel] at h
        obtain rfl : [c.1] = l := by
          have h' : (Except.ok [c.1] : Except String (List OrderedTechnology)) =
            Except.ok l := h
          injection h'
        intro ot hot
        obtain rfl : c.1 = ot := by
          rcases List.mem_singleton.mp hot with rfl
          rfl
        have hc : c ∈ cands := by
          rw [hsplit]
          exact List.mem_append.mpr (Or.inr (by simp))
        obtain ⟨hmem, _⟩ := hprops c hc
        obtain ⟨hreg, hcond⟩ := List.mem_filter.mp hmem
        simp only [Bool.and_eq_true] at hcond
        exact ⟨hcond.1, hreg⟩

/-- Witness for C1 (amended) on the successful `10xv3` classification of
the tier-1 scenario. -/
theorem tier_two_absent_witness :
    pyTruthy (⟨tech10xv3, [0, 1]⟩ : OrderedTechnology).technology.whitelist_path = true ∧
      (⟨tech10xv3, [0, 1]⟩ : OrderedTechnology).technology ∈ TECHNOLOGIES :=
  tier_two_absent wlTier1 readsTier1 techsTier1 [⟨tech10xv3, [0, 1]⟩] filterTier1_eval
    ⟨tech10xv3, [0, 1]⟩ (List.mem_singleton.mpr rfl)

/-- C6: tier-1 selection.  Given the extraction state and the candidate
list (whose entry counts all equal the sample size), the classifier result
is: empty when no candidate's match count exceeds half the sample size;
otherwise the singleton whose candidate has the strictly greatest match
count among qualifying candidates, where earlier (first-encountered)
candidates win ties — every qualifying candidate before the winner has a
strictly smaller count, every one after it a smaller-or-equal count. -/
theorem tier_one_selection (wl : String → Option (List String))
    (reads : List (String × List String)) (technologies : List OrderedTechnology)
    (st : ExtractState) (cands : List Candidate) (sampleSize : ℕ)
    (hne : technologies.isEmpty = false)
    (hex : extractFrom initState reads technologies = Except.ok st)
    (hca : tierOneCandidates wl st technologies = Except.ok cands)
    (hn : ∀ c ∈ cands, c.2.2 = sampleSize) :
    (filter_barcodes_umis wl reads technologies = Except.ok [] ∧
      ∀ c ∈ cands, ¬ ((c.2.1 : ℚ) > (sampleSize : ℚ) / 2)) ∨
    (∃ pre c post, cands = pre ++ c :: post ∧
      filter_barcodes_umis wl reads technologies = Except.ok [c.1] ∧
      (c.2.1 : ℚ) > (sampleSize : ℚ) / 2 ∧
      (∀ e ∈ pre, (e.2.1 : ℚ) > (sampleSize : ℚ) / 2 → e.2.1 < c.2.1) ∧
      (∀ e ∈ post, (e.2.1 : ℚ) > (sampleSize : ℚ) / 2 → e.2.1 ≤ c.2.1)) := by
  have hprops := tierOneCandidates_props wl st technologies cands hca
  have hfilter := filter_barcodes_umis_eq wl reads technologies st cands hne hex hca
  have hiff : ∀ c ∈ cands,
      ((c.2.1 : ℚ) / (c.2.2 : ℚ) > 1/2 ↔ (c.2.1 : ℚ) > (sampleSize : ℚ) / 2) := by
    intro c hc
    have hpos : (0 : ℚ) < (c.2.2 : ℚ) := by exact_mod_cast (hprops c hc).2
    have hveq : ((c.2.2 : ℕ) : ℚ) = ((sampleSize : ℕ) : ℚ) := by
      exact_mod_cast congrArg Nat.cast (hn c hc)
    rw [gt_iff_lt, gt_iff_lt, lt_div_iff hpos, hveq]
    rw [hveq] at hpos
    constructor <;> intro hh <;> nlinarith [hpos]
  rcases selectFold_spec cands (none, 0) with ⟨heq, hall⟩ |
      ⟨pre, c, post, hsplit, hres, hq, _, hpre, hpost⟩
  · left
    constructor
    · rw [hfilter]
      have hsel : selectCandidate cands = (none, 0) := heq
      rw [hsel]
    · intro c hc hqc
      have hqc' := (hiff c hc).mpr hqc
      have hle := hall c hc hqc'
      have hzero : c.2.1 = 0 := Nat.le_zero.mp hle
      rw [hzero] at hqc'
      norm_num at hqc'
  · right
    have hcmem : c ∈ cands := by
      rw [hsplit]
      exact List.mem_append.mpr (Or.inr (by simp))
    refine ⟨pre, c, post, hsplit, ?_, (hiff c hcmem).mp hq, ?_, ?_⟩
    · rw [hfilter]
      have hsel : selectCandidate cands = (some c.1, c.2.1) := hres
      rw [hsel]
    · intro e he hq'
      have hemem : e ∈ cands := by
        rw [hsplit]
        exact List.mem_append.mpr (Or.inl he)
      exact hpre e he ((hiff e hemem).mpr hq')
    · intro e he hq'
      have hemem : e ∈ cands := by
        rw [hsplit]
        exact List.mem_append.mpr (Or.inr (by simp [he]))
      exact hpost e he ((hiff e hemem).mpr hq')

/-- Witness for C6: the tier-1 scenario, where the candidate `10xv3 (0,1)`
matches 1 of 1 sampled barcodes and `10xv2 (0,1)` matches 0 of 1. -/
theorem tier_one_selection_witness :
    (filter_barcodes_umis wlTier1 readsTier1 techsTier1 = Except.ok [] ∧
      ∀ c ∈ candsTier1, ¬ ((c.2.1 : ℚ) > ((1 : ℕ) : ℚ) / 2)) ∨
    (∃ pre c post, candsTier1 = pre ++ c :: post ∧
      filter_barcodes_umis wlTier1 readsTier1 techsTier1 = Except.ok [c.1] ∧
      (c.2.1 : ℚ) > ((1 : ℕ) : ℚ) / 2 ∧
      (∀ e ∈ pre, (e.2.1 : ℚ) > ((1 : ℕ) : ℚ) / 2 → e.2.1 < c.2.1) ∧
      (∀ e ∈ post, (e.2.1 : ℚ) > ((1 : ℕ) : ℚ) / 2 → e.2.1 ≤ c.2.1)) :=
  tier_one_selection wlTier1 readsTier1 techsTier1 stTier1 candsTier1 1
    rfl (by rfl) (by rfl) (by decide)

/-! ## Hypothesis enumeration counts and order (claim C7) -/

theorem permsAux_length :
    ∀ (fuel : ℕ) (l : List ℕ), l.length = fuel →
      (permsAux fuel l).length = fuel.factorial := by
  intro fuel
  induction fuel with
  | zero => intro l _; rfl
  | succ n ih =>
    intro l h
    simp only [permsAux, List.length_flatMap]
    have hmap : (List.map
        (List.length ∘ fun i => List.map (fun p => l.getD (i.1) 0 :: p)
          (permsAux n (l.eraseIdx i.1))) (List.range l.length).attach) =
        List.replicate (List.range l.length).attach.length n.factorial := by
      rw [← List.map_const']
      apply List.map_congr_left
      intro i hi
      have hilt : i.1 < l.length := List.mem_range.mp i.2
      show (List.map (fun p => l.getD (i.1) 0 :: p) (permsAux n (l.eraseIdx i.1))).length =
        n.factorial
      rw [List.length_map]
      apply ih
      rw [List.length_eraseIdx, if_pos hilt]
      omega
    rw [hmap, List.sum_replicate, smul_eq_mul, List.length_attach, List.length_range, h,
      Nat.factorial_succ]

theorem permsAux_mem_perm :
    ∀ (fuel : ℕ) (l : List ℕ), l.length = fuel →
      ∀ p ∈ permsAux fuel l, p.Perm l := by
  intro fuel
  induction fuel with
  | zero =>
    intro l h p hp
    obtain rfl : l = [] := List.length_eq_zero.mp h
    obtain rfl : p = [] := by simpa [permsAux] using hp
    exact List.Perm.refl []
  | succ n ih =>
    intro l h p hp
    simp only [permsAux] at hp
    rw [List.mem_flatMap] at hp
    obtain ⟨i, hi, hpi⟩ := hp
    rw [List.mem_map] at hpi
    obtain ⟨q, hq, rfl⟩ := hpi
    have hilt : i.1 < l.length := List.mem_range.mp i.2
    have hlen : (l.eraseIdx i.1).length = n := by
      rw [List.length_eraseIdx, if_pos hilt]
      omega
    have hqperm : q.Perm (l.eraseIdx i.1) := ih (l.eraseIdx i.1) hlen q hq
    have hgd : l.getD i.1 0 = l[i.1] := by
      rw [List.getD_eq_getElem?_getD, List.getElem?_eq_getElem hilt]
      rfl
    have hsplit : (l.getD i.1 0 :: l.eraseIdx i.1).Perm l := by
      rw [hgd, List.eraseIdx_eq_take_drop_succ]
      have h2 : l.take i.1 ++ l[i.1] :: l.drop (i.1 + 1) = l := by
        rw [List.getElem_cons_drop, List.take_append_drop]
      have h1 : (l[i.1] :: (l.take i.1 ++ l.drop (i.1 + 1))).Perm
          (l.take i.1 ++ l[i.1] :: l.drop (i.1 + 1)) := List.perm_middle.symm
      rw [h2] at h1
      exact h1
    exact (hqperm.cons (l.getD i.1 0)).trans hsplit

theorem permsAux_chain :
    ∀ (fuel : ℕ) (l : List ℕ), l.length = fuel → l.Pairwise (· < ·) →
      (permsAux fuel l).Chain' (List.Lex (· < ·)) := by
  intro fuel
  induction fuel with
  | zero => intro l _ _; simp [permsAux]
  | succ n ih =>
    intro l h hpw
    simp only [permsAux]
    rw [List.flatMap_def]
    have hlenE : ∀ i : {x // x ∈ List.range l.length}, (l.eraseIdx i.1).length = n := by
      intro i
      have hilt : i.1 < l.length := List.mem_range.mp i.2
      rw [List.length_eraseIdx, if_pos hilt]
      omega
    have hne : [] ∉ (List.range l.length).attach.map
        (fun i => (permsAux n (l.eraseIdx i.1)).map (fun p => l.getD i.1 0 :: p)) := by
      intro hcon
      rw [List.mem_map] at hcon
      obtain ⟨i, _, hFi⟩ := hcon
      have hlenF : ((permsAux n (l.eraseIdx i.1)).map
          (fun p => l.getD i.1 0 :: p)).length = n.factorial := by
        rw [List.length_map]
        exact permsAux_length n (l.eraseIdx i.1) (hlenE i)
      rw [hFi] at hlenF
      simp only [List.length_nil] at hlenF
      exact absurd hlenF.symm (Nat.factorial_pos n).ne'
    rw [List.chain'_flatten hne]
    refine ⟨?_, ?_⟩
    · intro bl hbl
      rw [List.mem_map] at hbl
      obtain ⟨i, _, rfl⟩ := hbl
      rw [List.chain'_map]
      have hblock := ih (l.eraseIdx i.1) (hlenE i)
        (hpw.sublist (List.eraseIdx_sublist l i.1))
      exact hblock.imp (fun _ _ hab => List.Lex.cons hab)
    · rw [List.chain'_map]
      have hattach : ((List.range l.length).attach).Chain'
          (fun i j => i.1 < j.1) := by
        have hr : (List.range l.length).Chain' (· < ·) :=
          (List.pairwise_lt_range l.length).chain'
        refine (List.chain'_map (Subtype.val)).mp ?_
        rw [List.attach_map_subtype_val]
        exact hr
      refine hattach.imp ?_
      intro i j hij
      intro x hx y hy
      rw [List.getLast?_map] at hx
      rw [List.head?_map] at hy
      obtain ⟨p', _, rfl⟩ := Option.mem_map.mp hx
      obtain ⟨q', _, rfl⟩ := Option.mem_map.mp hy
      apply List.Lex.rel
      have hilt : i.1 < l.length := List.mem_range.mp i.2
      have hjlt : j.1 < l.length := List.mem_range.mp j.2
      have hgi : l.getD i.1 0 = l[i.1] := by
        rw [List.getD_eq_getElem?_getD, List.getElem?_eq_getElem hilt]; rfl
      have hgj : l.getD j.1 0 = l[j.1] := by
        rw [List.getD_eq_getElem?_getD, List.getElem?_eq_getElem hjlt]; rfl
      rw [hgi, hgj]
      exact List.pairwise_iff_getElem.mp hpw i.1 j.1 hilt hjlt hij

theorem permsPy_range_length (n : ℕ) :
    (permsPy (List.range n)).length = n.factorial := by
  rw [permsPy, List.length_range]
  exact permsAux_length n (List.range n) (List.length_range n)

theorem permsPy_range_chain (n : ℕ) :
    (permsPy (List.range n)).Chain' (List.Lex (· < ·)) := by
  rw [permsPy, List.length_range]
  exact permsAux_chain n (List.range n) (List.length_range n) (List.pairwise_lt_range n)

theorem permsPy_range_mem_perm (n : ℕ) :
    ∀ p ∈ permsPy (List.range n), p.Perm (List.range n) := by
  rw [permsPy, List.length_range]
  exact permsAux_mem_perm n (List.range n) (List.length_range n)

theorem permsPy_range_nodup (n : ℕ) : (permsPy (List.range n)).Nodup := by
  have hpair : (permsPy (List.range n)).Pairwise (List.Lex (· < ·)) :=
    List.chain'_iff_pairwise.mp (permsPy_range_chain n)
  refine hpair.imp ?_
  intro a b hab
  intro heq
  subst heq
  exact absurd hab (irrefl_of (List.Lex (· < ·)) a)

theorem all_ordered_filter_nil (t : Technology) (n : ℕ) :
    ∀ (techs : List Technology), t ∉ techs →
      (all_ordered_technologies techs n).filter
        (fun ot => decide (ot.technology = t)) = [] := by
  intro techs
  induction techs with
  | nil => intro _; rfl
  | cons t' rest ih =>
    intro ht
    have ht' : t' ≠ t := fun hcon => ht (hcon ▸ List.mem_cons_self t' rest)
    have htrest : t ∉ rest := fun hcon => ht (List.mem_cons_of_mem t' hcon)
    rw [all_ordered_technologies, List.flatMap_cons, List.filter_append]
    have hfold : (rest.flatMap fun tt =>
        (permsPy (List.range n)).map (fun p => (⟨tt, p⟩ : OrderedTechnology))) =
        all_ordered_technologies rest n := rfl
    rw [hfold, ih htrest]
    rw [List.filter_map]
    have : ((permsPy (List.range n)).filter
        ((fun ot : OrderedTechnology => decide (ot.technology = t)) ∘
          (fun p => (⟨t', p⟩ : OrderedTechnology)))) = [] := by
      apply List.filter_eq_nil_iff.mpr
      intro p _
      simp [ht']
    rw [this]
    rfl

theorem all_ordered_filter_eq (t : Technology) (n : ℕ) :
    ∀ (techs : List Technology), techs.Nodup → t ∈ techs →
      (all_ordered_technologies techs n).filter
        (fun ot => decide (ot.technology = t)) =
        (permsPy (List.range n)).map (fun p => ⟨t, p⟩) := by
  intro techs
  induction techs with
  | nil => intro _ ht; cases ht
  | cons t' rest ih =>
    intro hnd ht
    rw [all_ordered_technologies, List.flatMap_cons, List.filter_append]
    have hfold : (rest.flatMap fun tt =>
        (permsPy (List.range n)).map (fun p => (⟨tt, p⟩ : OrderedTechnology))) =
        all_ordered_technologies rest n := rfl
    rw [hfold]
    rcases List.mem_cons.mp ht with rfl | hrest
    · have htrest : t ∉ rest := (List.nodup_cons.mp hnd).1
      rw [all_ordered_filter_nil t n rest htrest]
      rw [List.filter_map]
      have : ((permsPy (List.range n)).filter
          ((fun ot : OrderedTechnology => decide (ot.technology = t)) ∘
            (fun p => (⟨t, p⟩ : OrderedTechnology)))) = permsPy (List.range n) := by
        apply List.filter_eq_self.mpr
        intro p _
        simp
      rw [this, List.append_nil]
    · have ht' : t' ≠ t := by
        rintro rfl
        exact (List.nodup_cons.mp hnd).1 hrest
      have hmap : ((permsPy (List.range n)).map
          (fun p => (⟨t', p⟩ : OrderedTechnology))).filter
            (fun ot => decide (ot.technology = t)) = [] := by
        rw [List.filter_map]
        have : ((permsPy (List.range n)).filter
            ((fun ot : OrderedTechnology => decide (ot.technology = t)) ∘
              (fun p => (⟨t', p⟩ : OrderedTechnology)))) = [] := by
          apply List.filter_eq_nil_iff.mpr
          intro p _
          simp [ht']
        rw [this]
        rfl
      rw [hmap, ih (List.nodup_cons.mp hnd).2 hrest, List.nil_append]

/-- C7: hypothesis enumeration.  For a registry entry `t` (occurring once
in the technology list), the hypotheses that survive the file-count filter
for technology `t` are exactly one per permutation of `range(fileCount)` —
`permsPy (range n)` when the input file count matches `t.n_files` and none
otherwise — and the permutation list has length `n_files!`, is emitted in
strictly increasing lexicographic order, has no duplicates, and contains
only permutations of `range n_files`. -/
theorem enumeration_counts (reads : List (String × List String))
    (techs : List Technology) (t : Technology)
    (ht : t ∈ techs) (hnd : techs.Nodup) :
    ((filter_files reads (all_ordered_technologies techs reads.length)).filter
        (fun ot => decide (ot.technology = t))).map OrderedTechnology.permutation =
      (if reads.length = t.n_files then permsPy (List.range reads.length) else []) ∧
    (permsPy (List.range t.n_files)).length = t.n_files.factorial ∧
    (permsPy (List.range t.n_files)).Chain' (List.Lex (· < ·)) ∧
    (permsPy (List.range t.n_files)).Nodup ∧
    (∀ p ∈ permsPy (List.range t.n_files), p.Perm (List.range t.n_files)) := by
  refine ⟨?_, permsPy_range_length t.n_files, permsPy_range_chain t.n_files,
    permsPy_range_nodup t.n_files, permsPy_range_mem_perm t.n_files⟩
  set A := all_ordered_technologies techs reads.length with hA
  have hpne : permsPy (List.range reads.length) ≠ [] := by
    intro hcon
    have := permsPy_range_length reads.length
    rw [hcon] at this
    exact absurd this.symm (Nat.factorial_pos reads.length).ne'
  have hAne : A.isEmpty = false := by
    obtain ⟨p0, hp0⟩ := List.exists_mem_of_ne_nil _ hpne
    have hmem : (⟨t, p0⟩ : OrderedTechnology) ∈ A := by
      rw [hA, all_ordered_technologies, List.mem_flatMap]
      exact ⟨t, ht, List.mem_map.mpr ⟨p0, hp0, rfl⟩⟩
    rcases hAeq : A with _ | _
    · rw [hAeq] at hmem
      cases hmem
    · rfl
  have hff : filter_files reads A =
      A.filter (fun ot => decide (reads.length = ot.technology.n_files)) := by
    rw [filter_files]
    simp only [hAne, Bool.false_eq_true, if_false]
  rw [hff]
  have hcomm : (A.filter (fun ot => decide (reads.length = ot.technology.n_files))).filter
      (fun ot => decide (ot.technology = t)) =
      (A.filter (fun ot => decide (ot.technology = t))).filter
        (fun ot => decide (reads.length = ot.technology.n_files)) := by
    rw [List.filter_filter, List.filter_filter]
    exact List.filter_congr (fun a _ => Bool.and_comm _ _)
  rw [hcomm, hA, all_ordered_filter_eq t reads.length techs hnd ht, List.filter_map]
  by_cases hmatch : reads.length = t.n_files
  · rw [if_pos hmatch]
    have hall : (permsPy (List.range reads.length)).filter
        ((fun ot : OrderedTechnology => decide (reads.length = ot.technology.n_files)) ∘
          (fun p => (⟨t, p⟩ : OrderedTechnology))) = permsPy (List.range reads.length) :=
      List.filter_eq_self.mpr (fun p _ => by simp [hmatch])
    rw [hall, List.map_map]
    have hid : (OrderedTechnology.permutation ∘ fun p => (⟨t, p⟩ : OrderedTechnology)) =
        id := rfl
    rw [hid, List.map_id]
  · rw [if_neg hmatch]
    have hnone : (permsPy (List.range reads.length)).filter
        ((fun ot : OrderedTechnology => decide (reads.length = ot.technology.n_files)) ∘
          (fun p => (⟨t, p⟩ : OrderedTechnology))) = [] :=
      List.filter_eq_nil_iff.mpr (fun p _ => by simp [hmatch])
    rw [hnone]
    rfl

/-- Witness for C7: two input files, the full registry, technology
`10xv2` (`n_files = 2`). -/
theorem enumeration_counts_witness :
    ((filter_files [("a", ["x"]), ("b", ["y"])]
        (all_ordered_technologies TECHNOLOGIES
          ([("a", ["x"]), ("b", ["y"])] : List (String × List String)).length)).filter
        (fun ot => decide (ot.technology = tech10xv2))).map OrderedTechnology.permutation =
      (if ([("a", ["x"]), ("b", ["y"])] : List (String × List String)).length =
          tech10xv2.n_files then
        permsPy (List.range ([("a", ["x"]), ("b", ["y"])] :
          List (String × List String)).length)
      else []) ∧
    (permsPy (List.range tech10xv2.n_files)).length = tech10xv2.n_files.factorial ∧
    (permsPy (List.range tech10xv2.n_files)).Chain' (List.Lex (· < ·)) ∧
    (permsPy (List.range tech10xv2.n_files)).Nodup ∧
    (∀ p ∈ permsPy (List.range tech10xv2.n_files),
      p.Perm (List.range tech10xv2.n_files)) :=
  enumeration_counts [("a", ["x"]), ("b", ["y"])] TECHNOLOGIES tech10xv2
    (by decide) (by decide)

/-! ## Shard merging (claim C8) -/

theorem mapM_alookup_ok (fs : List (String × String)) :
    ∀ (parts : List String), (∀ q ∈ parts, alookup q fs ≠ none) →
      parts.mapM (fun part => ofOption (alookup part fs) "FileNotFoundError") =
        Except.ok (parts.map (fun q => (alookup q fs).getD "")) := by
  intro parts
  induction parts with
  | nil => intro _; rfl
  | cons q rest ih =>
    intro h
    rw [List.mapM_cons]
    cases hq : alookup q fs with
    | none => exact absurd hq (h q (by simp))
    | some v =>
      have hrest := ih (fun x hx => h x (List.mem_cons_of_mem q hx))
      have hhd : List.map (fun q => (alookup q fs).getD "") (q :: rest) =
          v :: List.map (fun q => (alookup q fs).getD "") rest := by
        simp [hq]
      rw [hrest, hhd]
      rfl

theorem mergeFastqs_spec :
    ∀ (pairs : List (String × List String)) (fs : List (String × String)),
      (pairs.map Prod.fst).Nodup →
      (∀ pr ∈ pairs, ∀ q ∈ pr.2, q ∉ pairs.map Prod.fst) →
      (∀ pr ∈ pairs, ∀ q ∈ pr.2, alookup q fs ≠ none) →
      ∃ fs', mergeFastqs fs pairs = Except.ok fs' ∧
        (∀ k, k ∉ pairs.map Prod.fst → alookup k fs' = alookup k fs) ∧
        (∀ pr ∈ pairs, alookup pr.1 fs' =
          some (String.join (pr.2.map (fun q => (alookup q fs).getD "")))) ∧
        (∀ pr ∈ pairs, ∀ q ∈ pr.2, alookup q fs' = alookup q fs) := by
  intro pairs
  induction pairs with
  | nil =>
    intro fs _ _ _
    exact ⟨fs, rfl, fun _ _ => rfl, fun _ h => absurd h (List.not_mem_nil _),
      fun _ h => absurd h (List.not_mem_nil _)⟩
  | cons pr0 rest ih =>
    intro fs houts hdisj hparts
    obtain ⟨out, parts⟩ := pr0
    have hparts0 : ∀ q ∈ parts, alookup q fs ≠ none :=
      fun q hq => hparts (out, parts) (by simp) q hq
    have hdisj0 : ∀ q ∈ parts, q ≠ out ∧ q ∉ rest.map Prod.fst := by
      intro q hq
      have := hdisj (out, parts) (by simp) q hq
      simp only [List.map_cons, List.mem_cons, not_or] at this
      exact this
    set fs1 := aupsert out
      (String.join (parts.map (fun q => (alookup q fs).getD ""))) fs with hfs1
    have hstep : mergeFastqs fs ((out, parts) :: rest) = mergeFastqs fs1 rest := by
      rw [mergeFastqs, List.foldlM_cons]
      rw [show ((out, parts).2.mapM
          (fun part => ofOption (alookup part fs) "FileNotFoundError")) =
          Except.ok (parts.map (fun q => (alookup q fs).getD "")) from
        mapM_alookup_ok fs parts hparts0]
      rfl
    rw [List.map_cons] at houts
    have hnc := List.nodup_cons.mp houts
    have houts' : (rest.map Prod.fst).Nodup := hnc.2
    have houtmem : out ∉ rest.map Prod.fst := hnc.1
    have hdisj' : ∀ pr ∈ rest, ∀ q ∈ pr.2, q ∉ rest.map Prod.fst := by
      intro pr hpr q hq
      have := hdisj pr (by simp [hpr]) q hq
      simp only [List.map_cons, List.mem_cons, not_or] at this
      exact this.2
    have hqne_out : ∀ pr ∈ rest, ∀ q ∈ pr.2, q ≠ out := by
      intro pr hpr q hq
      have := hdisj pr (by simp [hpr]) q hq
      simp only [List.map_cons, List.mem_cons, not_or] at this
      exact this.1
    have hparts' : ∀ pr ∈ rest, ∀ q ∈ pr.2, alookup q fs1 ≠ none := by
      intro pr hpr q hq
      rw [hfs1, alookup_aupsert_ne (fun hh => hqne_out pr hpr q hq hh.symm)]
      exact hparts pr (by simp [hpr]) q hq
    obtain ⟨fs', hmerge, hframe, hout, hkeep⟩ := ih fs1 houts' hdisj' hparts'
    refine ⟨fs', by rw [hstep]; exact hmerge, ?_, ?_, ?_⟩
    · intro k hk
      simp only [List.map_cons, List.mem_cons, not_or] at hk
      rw [hframe k hk.2, hfs1, alookup_aupsert_ne (fun hh => hk.1 hh.symm)]
    · intro pr hpr
      rcases List.mem_cons.mp hpr with rfl | hpr'
      · dsimp only
        rw [hframe out houtmem, hfs1, alookup_aupsert_self]
      · rw [hout pr hpr']
        congr 1
        congr 1
        apply List.map_congr_left
        intro q hq
        rw [hfs1, alookup_aupsert_ne (fun hh => hqne_out pr hpr' q hq hh.symm)]
    · intro pr hpr q hq
      rcases List.mem_cons.mp hpr with rfl | hpr'
      · have hd := hdisj0 q hq
        rw [hframe q hd.2, hfs1, alookup_aupsert_ne (fun hh => hd.1 hh.symm)]
        
      · rw [hkeep pr hpr' q hq, hfs1,
          alookup_aupsert_ne (fun hh => hqne_out pr hpr' q hq hh.symm)]

/-- C8 counterexample: one output role, two workers.  After the merge loop
the final file holds the worker-index-order concatenation `"AB"`, but both
shard files are still present in the file system — the source contains no
deletion, while the claim says every shard file is deleted. -/
theorem merge_keeps_shards_counterexample :
    mergeFastqs [("1_part0.fastq.gz", "A"), ("1_part1.fastq.gz", "B")]
      (toFastqPairs "" 1 2) =
      Except.ok [("1_part0.fastq.gz", "A"), ("1_part1.fastq.gz", "B"),
        ("1.fastq.gz", "AB")] ∧
    alookup "1_part0.fastq.gz"
      [("1_part0.fastq.gz", "A"), ("1_part1.fastq.gz", "B"), ("1.fastq.gz", "AB")] =
      some "A" ∧
    alookup "1_part1.fastq.gz"
      [("1_part0.fastq.gz", "A"), ("1_part1.fastq.gz", "B"), ("1.fastq.gz", "AB")] =
      some "B" :=
  ⟨by rfl, rfl, rfl⟩

/-- C8 amended: at the end of a run each logical output file holds the
concatenation of its per-worker shard contents in worker-index order, and
the shard files are retained — they are not deleted, keeping their old
contents. -/
theorem merge_worker_order_shards_kept (pairs : List (String × List String))
    (fs : List (String × String))
    (houts : (pairs.map Prod.fst).Nodup)
    (hdisj : ∀ pr ∈ pairs, ∀ q ∈ pr.2, q ∉ pairs.map Prod.fst)
    (hparts : ∀ pr ∈ pairs, ∀ q ∈ pr.2, alookup q fs ≠ none) :
    ∃ fs', mergeFastqs fs pairs = Except.ok fs' ∧
      (∀ pr ∈ pairs, alookup pr.1 fs' =
        some (String.join (pr.2.map (fun q => (alookup q fs).getD "")))) ∧
      (∀ pr ∈ pairs, ∀ q ∈ pr.2, alookup q fs' = alookup q fs) := by
  obtain ⟨fs', hmerge, _, hout, hkeep⟩ := mergeFastqs_spec pairs fs houts hdisj hparts
  exact ⟨fs', hmerge, hout, hkeep⟩

/-- Witness for C8 (amended): the two-worker, one-role scenario through the
general theorem. -/
theorem merge_worker_order_shards_kept_witness :
    ∃ fs', mergeFastqs [("1_part0.fastq.gz", "A"), ("1_part1.fastq.gz", "B")]
        (toFastqPairs "" 1 2) = Except.ok fs' ∧
      (∀ pr ∈ toFastqPairs "" 1 2, alookup pr.1 fs' =
        some (String.join (pr.2.map (fun q => (alookup q
          [("1_part0.fastq.gz", "A"), ("1_part1.fastq.gz", "B")]).getD "")))) ∧
      (∀ pr ∈ toFastqPairs "" 1 2, ∀ q ∈ pr.2, alookup q fs' =
        alookup q [("1_part0.fastq.gz", "A"), ("1_part1.fastq.gz", "B")]) :=
  merge_worker_order_shards_kept (toFastqPairs "" 1 2)
    [("1_part0.fastq.gz", "A"), ("1_part1.fastq.gz", "B")]
    (by decide) (by decide) (by decide)

/-! ## Read reconstruction placeholders (claim C9) -/

theorem sliceAssign_length {α : Type} (l : List α) (s e : ℕ) (repl : List α)
    (hse : s ≤ e) (hel : e ≤ l.length) (hr : repl.length = e - s) :
    (sliceAssign l s e repl).length = l.length := by
  simp only [sliceAssign, List.length_append, List.length_take, List.length_drop]
  omega

theorem sliceAssign_getElem?_lt {α : Type} (l : List α) (s e : ℕ) (repl : List α)
    (k : ℕ) (hk : k < s) (hsl : s ≤ l.length) :
    (sliceAssign l s e repl)[k]? = l[k]? := by
  rw [sliceAssign,
    List.getElem?_append_left
      (by simp only [List.length_append, List.length_take]; omega),
    List.getElem?_append_left (by simp only [List.length_take]; omega),
    List.getElem?_take, if_pos hk]

theorem sliceAssign_getElem?_ge {α : Type} (l : List α) (s e : ℕ) (repl : List α)
    (k : ℕ) (hk : e ≤ k) (hse : s ≤ e) (hel : e ≤ l.length)
    (hr : repl.length = e - s) :
    (sliceAssign l s e repl)[k]? = l[k]? := by
  rw [sliceAssign,
    List.getElem?_append_right
      (by simp only [List.length_append, List.length_take]; omega),
    List.getElem?_drop]
  have hidx : e + (k - (List.take s l ++ repl).length) = k := by
    simp only [List.length_append, List.length_take]
    omega
  rw [hidx]

/-- Exact-length overlays on other files, or on positions of file `f` that
avoid position `k`, keep row `f`'s character at `k` and row `f`'s
lengths. -/
theorem overlayFold_preserves (f k excl : ℕ) (lengths : List ℕ) :
    ∀ (ops : List ((List Char × List Char) × ReadSubstring))
      (reads : List (List Char × List Char)),
      reads.length = lengths.length →
      (∀ op ∈ ops, op.2.file < lengths.length ∧ op.2.file ≠ excl ∧
        op.2.start ≤ op.2.stop ∧
        op.2.stop ≤ lengths.getD op.2.file 0 ∧
        op.1.1.length = op.2.stop - op.2.start ∧
        op.1.2.length = op.2.stop - op.2.start) ∧
      (∀ op ∈ ops, op.2.file = f → k < op.2.start ∨ op.2.stop ≤ k) →
      (∀ g, g < lengths.length → g ≠ excl →
        (reads.getD g ([], [])).1.length = lengths.getD g 0 ∧
        (reads.getD g ([], [])).2.length = lengths.getD g 0) →
      ∃ st', ops.foldlM (fun rs op => overlayRegion rs op.1 op.2) reads = Except.ok st' ∧
        st'.length = reads.length ∧
        (st'.getD f ([], [])).1[k]? = (reads.getD f ([], [])).1[k]? ∧
        (st'.getD f ([], [])).2[k]? = (reads.getD f ([], [])).2[k]? ∧
        (∀ g, g < lengths.length → g ≠ excl →
          (st'.getD g ([], [])).1.length = lengths.getD g 0 ∧
          (st'.getD g ([], [])).2.length = lengths.getD g 0) := by
  intro ops
  induction ops with
  | nil =>
    intro reads hlen _ hrows
    exact ⟨reads, rfl, rfl, rfl, rfl, hrows⟩
  | cons op rest ih =>
    intro reads hlen hops hrows
    obtain ⟨payload, r⟩ := op
    obtain ⟨hfile, hexcl, hse, hstop, hp1, hp2⟩ := hops.1 (payload, r) (by simp)
    dsimp only at hfile hexcl hse hstop hp1 hp2
    have hfile' : r.file < reads.length := by rw [hlen]; exact hfile
    have hread := pget_getD (([], []) : List Char × List Char) hfile'
    set read := reads.getD r.file ([], []) with hreaddef
    set reads1 := reads.set r.file
      (sliceAssign read.1 r.start r.stop payload.1,
       sliceAssign read.2 r.start r.stop payload.2) with hreads1
    have hstep : overlayRegion reads payload r = Except.ok reads1 := by
      rw [overlayRegion, hread]
    have hrowlen := hrows r.file hfile hexcl
    have hrows1 : ∀ g, g < lengths.length → g ≠ excl →
        (reads1.getD g ([], [])).1.length = lengths.getD g 0 ∧
        (reads1.getD g ([], [])).2.length = lengths.getD g 0 := by
      intro g hg hgex
      by_cases hgf : r.file = g
      · subst hgf
        have hget : reads1.getD r.file ([], []) =
            (sliceAssign read.1 r.start r.stop payload.1,
             sliceAssign read.2 r.start r.stop payload.2) := by
          rw [hreads1, List.getD_eq_getElem?_getD, List.getElem?_set_self hfile']
          rfl
        rw [hget]
        constructor
        · exact (sliceAssign_length read.1 r.start r.stop payload.1 hse
            (by rw [hrowlen.1]; exact hstop) hp1).trans hrowlen.1
        · exact (sliceAssign_length read.2 r.start r.stop payload.2 hse
            (by rw [hrowlen.2]; exact hstop) hp2).trans hrowlen.2
      · have hget : reads1.getD g ([], []) = reads.getD g ([], []) := by
          rw [hreads1, List.getD_eq_getElem?_getD, List.getElem?_set_ne hgf,
            List.getD_eq_getElem?_getD]
        rw [hget]
        exact hrows g hg hgex
    obtain ⟨st', hfold, hstlen, hk1, hk2, hstrows⟩ := ih reads1
      (by rw [hreads1, List.length_set]; exact hlen)
      ⟨fun o ho => hops.1 o (by simp [ho]), fun o ho => hops.2 o (by simp [ho])⟩
      hrows1
    refine ⟨st', ?_, ?_, ?_, ?_, hstrows⟩
    · rw [List.foldlM_cons, hstep]
      exact hfold
    · rw [hstlen, hreads1, List.length_set]
    · rw [hk1]
      by_cases hgf : r.file = f
      · subst hgf
        have hnc := hops.2 (payload, r) (by simp) rfl
        dsimp only at hnc
        have hget : reads1.getD r.file ([], []) =
            (sliceAssign read.1 r.start r.stop payload.1,
             sliceAssign read.2 r.start r.stop payload.2) := by
          rw [hreads1, List.getD_eq_getElem?_getD, List.getElem?_set_self hfile']
          rfl
        rw [hget]
        rcases hnc with hlt | hge
        · exact sliceAssign_getElem?_lt read.1 r.start r.stop payload.1 k hlt
            (by rw [hrowlen.1]; omega)
        · exact sliceAssign_getElem?_ge read.1 r.start r.stop payload.1 k hge hse
            (by rw [hrowlen.1]; exact hstop) hp1
      · have hget : reads1.getD f ([], []) = reads.getD f ([], []) := by
          rw [hreads1, List.getD_eq_getElem?_getD, List.getElem?_set_ne hgf,
            List.getD_eq_getElem?_getD]
        rw [hget]
    · rw [hk2]
      by_cases hgf : r.file = f
      · subst hgf
        have hnc := hops.2 (payload, r) (by simp) rfl
        dsimp only at hnc
        have hget : reads1.getD r.file ([], []) =
            (sliceAssign read.1 r.start r.stop payload.1,
             sliceAssign read.2 r.start r.stop payload.2) := by
          rw [hreads1, List.getD_eq_getElem?_getD, List.getElem?_set_self hfile']
          rfl
        rw [hget]
        rcases hnc with hlt | hge
        · exact sliceAssign_getElem?_lt read.2 r.start r.stop payload.2 k hlt
            (by rw [hrowlen.2]; omega)
        · exact sliceAssign_getElem?_ge read.2 r.start r.stop payload.2 k hge hse
            (by rw [hrowlen.2]; exact hstop) hp2
      · have hget : reads1.getD f ([], []) = reads.getD f ([], []) := by
          rw [hreads1, List.getD_eq_getElem?_getD, List.getElem?_set_ne hgf,
            List.getD_eq_getElem?_getD]
        rw [hget]

/-- C9 amended: in the per-record reconstruction of `BAM.parser`, when all
overlaid barcode/UMI payloads have exactly their region's width, every
position of a non-sequence output role covered by no barcode or UMI region
carries the unknown-base placeholder `'N'` in the sequence line and the
fixed placeholder `'F'` (Phred+33 quality 37, not the lowest quality) in
the quality line. -/
theorem reconstruct_uncovered (tech : Technology) (lengths : List ℕ)
    (rec : ExtractedRecord) (f k : ℕ)
    (hf : f < lengths.length) (hfr : f ≠ tech.reads_file)
    (hrf : tech.reads_file < lengths.length)
    (hk : k < lengths.getD f 0)
    (hbars : ∀ op ∈ rec.barcodes.zip tech.barcode_positions,
      op.2.file < lengths.length ∧ op.2.file ≠ tech.reads_file ∧
      op.2.start ≤ op.2.stop ∧ op.2.stop ≤ lengths.getD op.2.file 0 ∧
      op.1.1.length = op.2.stop - op.2.start ∧
      op.1.2.length = op.2.stop - op.2.start)
    (humis : ∀ op ∈ rec.umis.zip tech.umi_positions,
      op.2.file < lengths.length ∧ op.2.file ≠ tech.reads_file ∧
      op.2.start ≤ op.2.stop ∧ op.2.stop ≤ lengths.getD op.2.file 0 ∧
      op.1.1.length = op.2.stop - op.2.start ∧
      op.1.2.length = op.2.stop - op.2.start)
    (hncb : ∀ op ∈ rec.barcodes.zip tech.barcode_positions,
      op.2.file = f → k < op.2.start ∨ op.2.stop ≤ k)
    (hncu : ∀ op ∈ rec.umis.zip tech.umi_positions,
      op.2.file = f → k < op.2.start ∨ op.2.stop ≤ k) :
    ∃ out, reconstructReads tech lengths rec = Except.ok out ∧
      (out.getD f ([], [])).1[k]? = some 'N' ∧
      (out.getD f ([], [])).2[k]? = some 'F' := by
  set reads0 := lengths.map (fun l => (List.replicate l 'N', List.replicate l 'F'))
    with hreads0
  have hlen0 : reads0.length = lengths.length := by rw [hreads0, List.length_map]
  have hrow0 : ∀ g, g < lengths.length → reads0.getD g ([], []) =
      (List.replicate (lengths.getD g 0) 'N', List.replicate (lengths.getD g 0) 'F') := by
    intro g hg
    rw [hreads0, List.getD_eq_getElem?_getD, List.getElem?_map,
      List.getElem?_eq_getElem hg]
    rw [List.getD_eq_getElem?_getD, List.getElem?_eq_getElem hg]
    rfl
  have hpget : pget reads0 tech.reads_file =
      Except.ok (reads0.getD tech.reads_file ([], [])) :=
    pget_getD ([], []) (by rw [hlen0]; exact hrf)
  set reads1 := reads0.set tech.reads_file rec.sequence with hreads1
  have hlen1 : reads1.length = lengths.length := by
    rw [hreads1, List.length_set, hlen0]
  have hrow1 : ∀ g, g < lengths.length → g ≠ tech.reads_file →
      reads1.getD g ([], []) =
      (List.replicate (lengths.getD g 0) 'N', List.replicate (lengths.getD g 0) 'F') := by
    intro g hg hgr
    rw [hreads1, List.getD_eq_getElem?_getD,
      List.getElem?_set_ne (fun hh => hgr hh.symm), ← List.getD_eq_getElem?_getD]
    exact hrow0 g hg
  have hrows1 : ∀ g, g < lengths.length → g ≠ tech.reads_file →
      (reads1.getD g ([], [])).1.length = lengths.getD g 0 ∧
      (reads1.getD g ([], [])).2.length = lengths.getD g 0 := by
    intro g hg hgr
    rw [hrow1 g hg hgr]
    simp
  obtain ⟨reads2, hfold1, hlen2, hk1a, hk2a, hrows2⟩ :=
    overlayFold_preserves f k tech.reads_file lengths
      (rec.barcodes.zip tech.barcode_positions) reads1 hlen1 ⟨hbars, hncb⟩ hrows1
  obtain ⟨reads3, hfold2, hlen3, hk1b, hk2b, _⟩ :=
    overlayFold_preserves f k tech.reads_file lengths
      (rec.umis.zip tech.umi_positions) reads2 (by rw [hlen2, hlen1]) ⟨humis, hncu⟩
      hrows2
  have hrun : reconstructReads tech lengths rec = Except.ok
      (reads3.map (fun r => (r.1.map Char.toUpper, r.2.map Char.toUpper))) := by
    unfold reconstructReads
    dsimp only
    rw [← hreads0, hpget]
    dsimp only
    rw [← hreads1, hfold1]
    dsimp only
    rw [hfold2]
  have hrowf1 : (reads1.getD f ([], [])) =
      (List.replicate (lengths.getD f 0) 'N', List.replicate (lengths.getD f 0) 'F') :=
    hrow1 f hf hfr
  have hk3a : (reads3.getD f ([], [])).1[k]? = some 'N' := by
    rw [hk1b, hk1a, hrowf1]
    show (List.replicate (lengths.getD f 0) 'N')[k]? = some 'N'
    rw [List.getElem?_replicate, if_pos hk]
  have hk3b : (reads3.getD f ([], [])).2[k]? = some 'F' := by
    rw [hk2b, hk2a, hrowf1]
    show (List.replicate (lengths.getD f 0) 'F')[k]? = some 'F'
    rw [List.getElem?_replicate, if_pos hk]
  have hf3 : f < reads3.length := by rw [hlen3, hlen2, hlen1]; exact hf
  refine ⟨reads3.map (fun r => (r.1.map Char.toUpper, r.2.map Char.toUpper)),
    hrun, ?_, ?_⟩
  · rw [List.getD_eq_getElem?_getD, List.getElem?_map, List.getElem?_eq_getElem hf3]
    show ((reads3[f].1.map Char.toUpper, reads3[f].2.map Char.toUpper).1)[k]? = some 'N'
    rw [List.getElem?_map]
    have : reads3[f] = reads3.getD f ([], []) := by
      rw [List.getD_eq_getElem?_getD, List.getElem?_eq_getElem hf3]
      rfl
    rw [this, hk3a]
    rfl
  · rw [List.getD_eq_getElem?_getD, List.getElem?_map, List.getElem?_eq_getElem hf3]
    show ((reads3[f].1.map Char.toUpper, reads3[f].2.map Char.toUpper).2)[k]? = some 'F'
    rw [List.getElem?_map]
    have : reads3[f] = reads3.getD f ([], []) := by
      rw [List.getD_eq_getElem?_getD, List.getElem?_eq_getElem hf3]
      rfl
    rw [this, hk3b]
    rfl

/-- The gapped two-file layout used to exhibit an uncovered position: the
barcode region is `[3,5)` and the UMI region `[0,2)` of file 0, leaving
position 2 uncovered in a length-5 role. -/
def techGap : Technology :=
  { name := "10xv2", description := "", n_files := 2, reads_file := 1,
    umi_positions := [⟨0, 0, 2⟩], barcode_positions := [⟨0, 3, 5⟩],
    whitelist_path := none }

/-- A decoded record for `techGap`: barcode `GT` (qualities `BB`), UMI `CA`
(qualities `II`), sequence `TTT` (qualities `JJJ`). -/
def recGap : ExtractedRecord :=
  { barcodes := [(['G', 'T'], ['B', 'B'])],
    umis := [(['C', 'A'], ['I', 'I'])],
    sequence := (['T', 'T', 'T'], ['J', 'J', 'J']) }

/-- C9 counterexample: the uncovered position 2 of role 0 holds `'N'` in
the sequence line — but `'F'`, not the lowest-quality sentinel `'!'`
(Phred+33 quality 0), in the quality line. -/
theorem reconstruct_not_lowest_quality_counterexample :
    reconstructReads techGap [5, 0, 0] recGap = Except.ok
      [(['C', 'A', 'N', 'G', 'T'], ['I', 'I', 'F', 'B', 'B']),
       (['T', 'T', 'T'], ['J', 'J', 'J']), ([], [])] ∧
    (['C', 'A', 'N', 'G', 'T'] : List Char)[2]? = some 'N' ∧
    (['I', 'I', 'F', 'B', 'B'] : List Char)[2]? = some 'F' ∧
    ('F' : Char) ≠ specLowestQualityChar :=
  ⟨by rfl, rfl, rfl, by decide⟩

/-- Witness for C9 (amended): the gapped layout at role 0, position 2. -/
theorem reconstruct_uncovered_witness :
    ∃ out, reconstructReads techGap [5, 0, 0] recGap = Except.ok out ∧
      (out.getD 0 ([], [])).1[2]? = some 'N' ∧
      (out.getD 0 ([], [])).2[2]? = some 'F' :=
  reconstruct_uncovered techGap [5, 0, 0] recGap 0 2
    (by decide) (by decide) (by decide) (by decide)
    (by decide) (by decide) (by decide) (by decide)

/-! ## C10: index-read exclusion in the read-file driver -/

/-- Dropping an entry whose sampled reads pass the index-read test does not
change the outcome of the sampling loop. -/
theorem selectReads_erase_index (path : String) (rs : List String)
    (hlow : isIndexRead rs = Except.ok true)
    (pre post : List (String × List String)) :
    selectReads (pre ++ (path, rs) :: post) = selectReads (pre ++ post) := by
  induction pre with
  | nil =>
    rw [List.nil_append, List.nil_append, selectReads, hlow]
    cases selectReads post <;> rfl
  | cons q pre ih =>
    obtain ⟨qp, qrs⟩ := q
    rw [List.cons_append, List.cons_append, selectReads, selectReads, ih]

/-- Every entry the sampling loop keeps has its path among the input paths. -/
theorem selectReads_keys_subset (l : List (String × List String)) :
    ∀ kept, selectReads l = Except.ok kept → ∀ p ∈ kept, p.1 ∈ akeys l := by
  induction l with
  | nil =>
    intro kept h p hp
    have h' : (Except.ok [] : Except String (List (String × List String))) =
        Except.ok kept := h
    injection h' with h2
    subst h2
    exact absurd hp (List.not_mem_nil p)
  | cons q rest ih =>
    obtain ⟨qp, qrs⟩ := q
    intro kept h p hp
    rw [selectReads] at h
    cases hlow : isIndexRead qrs with
    | error e => rw [hlow] at h; exact Except.noConfusion h
    | ok low =>
      rw [hlow] at h
      dsimp only at h
      cases hrest : selectReads rest with
      | error e => rw [hrest] at h; exact Except.noConfusion h
      | ok k2 =>
        rw [hrest] at h
        dsimp only at h
        cases low with
        | true =>
          simp only [if_true] at h
          injection h with h2
          subst h2
          exact List.mem_cons_of_mem _ (ih k2 hrest p hp)
        | false =>
          simp only [Bool.false_eq_true, if_false] at h
          injection h with h2
          subst h2
          rcases List.mem_cons.mp hp with hpe | hpm
          · subst hpe; exact List.mem_cons_self _ _
          · exact List.mem_cons_of_mem _ (ih k2 hrest p hpm)

/-- C10: a file whose sampled reads contain fewer than 5% distinct sequences
(`len(set(rs))/len(rs) < 0.05`) is silently excluded: `fqc_fastq` on the full
input equals `fqc_fastq` with that file removed, and when the run succeeds the
excluded path is absent from the returned file list. -/
theorem index_read_excluded (wl : String → Option (List String))
    (pre post : List (String × List String)) (path : String) (rs : List String)
    (hlow : isIndexRead rs = Except.ok true)
    (hpath : path ∉ akeys (pre ++ post)) :
    fqc_fastq wl (pre ++ (path, rs) :: post) = fqc_fastq wl (pre ++ post) ∧
    ∀ res, fqc_fastq wl (pre ++ (path, rs) :: post) = Except.ok res →
      path ∉ res.1 := by
  have hsel := selectReads_erase_index path rs hlow pre post
  have heq : fqc_fastq wl (pre ++ (path, rs) :: post) =
      fqc_fastq wl (pre ++ post) := by
    unfold fqc_fastq
    rw [hsel]
  refine ⟨heq, ?_⟩
  intro res hres hmem
  rw [heq] at hres
  unfold fqc_fastq at hres
  cases hselpp : selectReads (pre ++ post) with
  | error e => rw [hselpp] at hres; exact Except.noConfusion hres
  | ok kept =>
    rw [hselpp] at hres
    dsimp only at hres
    cases hfil : filter_barcodes_umis wl kept (filter_files kept []) with
    | error e => rw [hfil] at hres; exact Except.noConfusion hres
    | ok techs =>
      rw [hfil] at hres
      dsimp only at hres
      injection hres with h2
      subst h2
      rcases List.mem_map.mp hmem with ⟨p, hp, hpfst⟩
      have := selectReads_keys_subset (pre ++ post) kept hselpp p hp
      rw [hpfst] at this
      exact hpath this

/-- The index-read test holds for forty copies of one sequence: one distinct
read out of forty is below the 5% threshold. -/
theorem isIndexRead_rep40 :
    isIndexRead (List.replicate 40 "AAAA") = Except.ok true := by
  unfold isIndexRead
  rw [if_neg (by decide)]
  congr 1
  rw [decide_eq_true_eq]
  rw [show (List.replicate 40 "AAAA").dedup = ["AAAA"] from by rfl]
  rw [show (List.replicate 40 ("AAAA" : String)).length = 40 from by rfl]
  norm_num

/-- Witness for C10: two real read files plus one forty-fold-repeated index
file; the index file is dropped and never reported. -/
theorem index_read_excluded_witness :
    fqc_fastq (fun _ => some [])
        ([("r1.fastq", ["ACGT", "TTTT"])] ++
          ("idx.fastq", List.replicate 40 "AAAA") ::
          [("r2.fastq", ["GGGG", "CCCC"])]) =
      fqc_fastq (fun _ => some [])
        ([("r1.fastq", ["ACGT", "TTTT"])] ++ [("r2.fastq", ["GGGG", "CCCC"])]) ∧
    ∀ res, fqc_fastq (fun _ => some [])
        ([("r1.fastq", ["ACGT", "TTTT"])] ++
          ("idx.fastq", List.replicate 40 "AAAA") ::
          [("r2.fastq", ["GGGG", "CCCC"])]) = Except.ok res →
      "idx.fastq" ∉ res.1 :=
  index_read_excluded (fun _ => some [])
    [("r1.fastq", ["ACGT", "TTTT"])] [("r2.fastq", ["GGGG", "CCCC"])]
    "idx.fastq" (List.replicate 40 "AAAA")
    isIndexRead_rep40 (by decide)

end Fqc